import Mathlib

/-!
Verification of the crawling engine of `doc_assembler_web`.

This file gives a shallow embedding, in Lean 4, of the parts of the
repository that the frozen claims talk about:

* `packages/webcrawler/src/webcrawler/core/crawler.py` (`Crawler`),
* `packages/webcrawler/src/webcrawler/core/config.py`
  (`CrawlerConfig.is_allowed_domain`, `RobotsConfig.is_allowed`),
* `packages/mcp_server/src/mcp_server/core/crawler.py`
  (`PlaywrightCrawler` and its helpers).

URLs are modelled as lists of characters (`Url := List Char`); the
relevant pieces of CPython's `urllib.parse` (`urlsplit`, `urlunsplit`,
`urljoin`) are embedded as executable functions; network transports
(aiohttp sessions, Playwright pages) are modelled as oracles
(`Url → Option …`), matching the spec's `PageFetcher` capability view.

Modelling notes, applying to everything below:
* Python `str` is modelled as `List Char`; `.lower()` and `.strip()` are
  modelled for the ASCII range (the vocabulary appearing in the code);
  Unicode case mapping beyond ASCII is not modelled.
* CPython's `urlsplit` control-character stripping and the RFC 1808
  `;parameters` component of `urlparse` are not modelled; no claim
  depends on them.
* `asyncio` scheduling and wall-clock sleeping are not modelled; sleeps
  are recorded symbolically where a claim mentions them.
-/

/-- A URL (or any Python string), modelled as its list of characters. -/
abbrev Url := List Char

/-- ASCII lower-casing of one character, as CPython's `str.lower` acts on
the ASCII range (and exactly core `Char.toLower`). -/
def lowerChar (c : Char) : Char :=
  if 65 ≤ c.toNat && c.toNat ≤ 90 then Char.ofNat (c.toNat + 32) else c

/-- `s.lower()` on the ASCII range. -/
def lowerChars (l : Url) : Url := l.map lowerChar

/-- The whitespace characters removed by Python's `str.strip()`
(ASCII range). -/
def isSpaceChar (c : Char) : Bool :=
  c == ' ' || c == '\t' || c == '\n' || c == '\r' ||
    c == Char.ofNat 11 || c == Char.ofNat 12

/-- `s.strip()`: drop leading and trailing whitespace. -/
def stripChars (l : Url) : Url :=
  ((l.dropWhile isSpaceChar).reverse.dropWhile isSpaceChar).reverse

/-- `s.startswith(p)` for Python strings. -/
def startsWithChars (l p : Url) : Bool := l.take p.length == p

/-- `s.endswith(p)` for Python strings. -/
def endsWithChars (l p : Url) : Bool := l.reverse.take p.length == p.reverse

/-- Split at the first occurrence of `sep`: returns the part before it
and, when `sep` occurs, the part after it (`s.split(sep, 1)`). -/
def splitAtFirst (sep : Char) : Url → Url × Option Url
  | [] => ([], none)
  | c :: cs =>
    if c = sep then ([], some cs)
    else
      let r := splitAtFirst sep cs
      (c :: r.1, r.2)

/-- Python `s.split(sep)` for a one-character separator: always returns
at least one piece (`"".split(sep) == ['']`). -/
def splitOnChar (sep : Char) : Url → List Url
  | [] => [[]]
  | c :: cs =>
    if c = sep then [] :: splitOnChar sep cs
    else
      match splitOnChar sep cs with
      | [] => [[c]]
      | h :: t => (c :: h) :: t

-- Basic facts about the character utilities.

theorem toNat_ofNat_of_valid (n : Nat) (h : n.isValidChar) :
    (Char.ofNat n).toNat = n := by
  rw [Char.ofNat, dif_pos h]
  rfl

theorem lowerChar_toNat (c : Char) :
    (lowerChar c).toNat =
      if 65 ≤ c.toNat ∧ c.toNat ≤ 90 then c.toNat + 32 else c.toNat := by
  by_cases h : 65 ≤ c.toNat ∧ c.toNat ≤ 90
  · have hb : (65 ≤ c.toNat && c.toNat ≤ 90) = true := by
      simp only [Bool.and_eq_true, decide_eq_true_eq]
      exact h
    have hv : (c.toNat + 32).isValidChar := Or.inl (by omega)
    rw [lowerChar, if_pos hb, if_pos h, toNat_ofNat_of_valid _ hv]
  · rw [lowerChar, if_neg (fun hc => h (by simpa using hc)), if_neg h]

theorem lowerChar_eq_self_of_not_upper (c : Char)
    (h : ¬(65 ≤ c.toNat ∧ c.toNat ≤ 90)) : lowerChar c = c := by
  rw [lowerChar, if_neg (fun hc => h (by simpa using hc))]

theorem lowerChar_idem (c : Char) : lowerChar (lowerChar c) = lowerChar c := by
  apply lowerChar_eq_self_of_not_upper
  rw [lowerChar_toNat]
  by_cases h : 65 ≤ c.toNat ∧ c.toNat ≤ 90
  · rw [if_pos h]
    omega
  · rw [if_neg h]
    exact h

theorem lowerChars_idem (l : Url) : lowerChars (lowerChars l) = lowerChars l := by
  unfold lowerChars
  rw [List.map_map]
  apply List.map_congr_left
  intro c _
  exact lowerChar_idem c

/-!
Section: CPython `urllib.parse` model

`urlsplit`, `urlunsplit` and `urljoin` as used by
`Crawler.normalize_url` and `PlaywrightCrawler._filter_urls`.
-/

/-- An ASCII letter (`a`–`z` or `A`–`Z`), by code point. -/
def asciiAlpha (c : Char) : Bool :=
  (97 ≤ c.toNat && c.toNat ≤ 122) || (65 ≤ c.toNat && c.toNat ≤ 90)

/-- One of CPython's `scheme_chars`
(`letters ++ digits ++ "+-."`). -/
def schemeChar (c : Char) : Bool :=
  asciiAlpha c || (48 ≤ c.toNat && c.toNat ≤ 57) ||
    c == '+' || c == '-' || c == '.'

/-- CPython accepts `url[:i]` as a scheme when it is nonempty, starts with
an ASCII letter and consists of `scheme_chars` only. -/
def validScheme : Url → Bool
  | [] => false
  | c :: cs => asciiAlpha c && (c :: cs).all schemeChar

/-- The result of `urlsplit` (the RFC 1808 `;parameters` component of
`urlparse` is not modelled; see the header). -/
structure UrlParts where
  scheme : Url
  netloc : Url
  path : Url
  query : Url
  fragment : Url
deriving DecidableEq, Repr

/-- The scheme step of `urlsplit`: split at the first `':'` and accept the
part before it when it is a valid scheme (lower-casing it); otherwise
leave the input untouched. -/
def splitScheme (u : Url) : Url × Url :=
  match splitAtFirst ':' u with
  | (before, some after) =>
    if validScheme before then (lowerChars before, after) else ([], u)
  | (_, none) => ([], u)

/-- A character ending the netloc (`'/'`, `'?'` or `'#'`), negated. -/
def notDelimChar (c : Char) : Bool := !(c == '/' || c == '?' || c == '#')

/-- The netloc step of `urlsplit` (`_splitnetloc`): when the rest starts
with `"//"`, the netloc extends to the next `'/'`, `'?'` or `'#'`. -/
def splitNetloc (u : Url) : Url × Url :=
  if u.take 2 = ['/', '/'] then
    ((u.drop 2).takeWhile notDelimChar, (u.drop 2).dropWhile notDelimChar)
  else ([], u)

/-- The fragment step of `urlsplit`: split at the first `'#'`. -/
def splitSharp (u : Url) : Url × Url :=
  match splitAtFirst '#' u with
  | (before, some after) => (before, after)
  | (before, none) => (before, [])

/-- The query step of `urlsplit`: split at the first `'?'`. -/
def splitQuery (u : Url) : Url × Url :=
  match splitAtFirst '?' u with
  | (before, some after) => (before, after)
  | (before, none) => (before, [])

/-- CPython `urllib.parse.urlsplit` (without the control-character
stripping and netloc bracket validation). -/
def urlsplitChars (u : Url) : UrlParts :=
  let s1 := splitScheme u
  let s2 := splitNetloc s1.2
  let s3 := splitSharp s2.2
  let s4 := splitQuery s3.1
  ⟨s1.1, s2.1, s4.1, s4.2, s3.2⟩

/-- CPython `urllib.parse.uses_relative`. -/
def usesRelative : List Url :=
  (["", "ftp", "http", "gopher", "nntp", "imap", "wais", "file", "https",
    "shttp", "mms", "prospero", "rtsp", "rtspu", "sftp", "svn", "svn+ssh",
    "ws", "wss"].map String.data)

/-- CPython `urllib.parse.uses_netloc`. -/
def usesNetloc : List Url :=
  (["", "ftp", "http", "gopher", "nntp", "telnet", "imap", "wais", "file",
    "mms", "https", "shttp", "snews", "prospero", "rtsp", "rtspu", "rsync",
    "svn", "svn+ssh", "sftp", "nfs", "git", "git+ssh", "ws", "wss",
    "itms-services"].map String.data)

/-- CPython `urllib.parse.urlunsplit` (query and fragment reattached only
when nonempty, `"//"` inserted when a netloc is present). -/
def urlunsplitChars (p : UrlParts) : Url :=
  let u1 :=
    if p.netloc ≠ [] ∨ (p.path ≠ [] ∧ p.path.take 2 = ['/', '/']) then
      let u' := if p.path ≠ [] ∧ p.path.head? ≠ some '/' then '/' :: p.path else p.path
      ['/', '/'] ++ p.netloc ++ u'
    else p.path
  let u2 := if p.scheme ≠ [] then p.scheme ++ ':' :: u1 else u1
  let u3 := if p.query ≠ [] then u2 ++ '?' :: p.query else u2
  if p.fragment ≠ [] then u3 ++ '#' :: p.fragment else u3

/-- `segments[1:-1] = filter(None, segments[1:-1])` from `urljoin`: drop
the empty segments strictly between the first and the last one. -/
def filterMiddle (l : List Url) : List Url :=
  match l with
  | [] => []
  | [a] => [a]
  | a :: rest =>
    match rest.reverse with
    | [] => [a]
    | last :: midRev => a :: (midRev.reverse.filter (fun s => !s.isEmpty)) ++ [last]

/-- The dot-segment resolution loop of `urljoin` (`'..'` pops, `'.'` is
skipped, a pop on an empty stack is ignored). -/
def resolveDots (segs : List Url) : List Url :=
  segs.foldl
    (fun acc seg =>
      if seg = ['.', '.'] then acc.dropLast
      else if seg = ['.'] then acc
      else acc ++ [seg]) []

/-- CPython `urllib.parse.urljoin`.  The relative URL inherits the base's
scheme (`urlparse(url, bscheme)`); an absolute URL with a different or
non-relative scheme is returned untouched; an absolute URL with a netloc
is reassembled; otherwise the paths are merged with dot-segment
resolution. -/
def urljoinChars (base u : Url) : Url :=
  if base = [] then u
  else if u = [] then base
  else
    let b := urlsplitChars base
    let r0 := urlsplitChars u
    let r1 := if r0.scheme = [] then { r0 with scheme := b.scheme } else r0
    if r1.scheme ≠ b.scheme ∨ r1.scheme ∉ usesRelative then u
    else if r1.scheme ∈ usesNetloc ∧ r1.netloc ≠ [] then
      urlunsplitChars r1
    else
      let netloc := if r1.scheme ∈ usesNetloc then b.netloc else r1.netloc
      if r1.path = [] then
        let query := if r1.query = [] then b.query else r1.query
        urlunsplitChars ⟨r1.scheme, netloc, b.path, query, r1.fragment⟩
      else
        let segments :=
          if r1.path.head? = some '/' then splitOnChar '/' r1.path
          else
            let baseParts := splitOnChar '/' b.path
            let baseParts :=
              if baseParts.getLast? ≠ some ([] : Url) then baseParts.dropLast
              else baseParts
            filterMiddle (baseParts ++ splitOnChar '/' r1.path)
        let resolved := resolveDots segments
        let resolved :=
          if segments.getLast? = some ['.'] ∨ segments.getLast? = some ['.', '.'] then
            resolved ++ [([] : Url)]
          else resolved
        let path := List.intercalate ['/'] resolved
        let path := if path = [] then ['/'] else path
        urlunsplitChars ⟨r1.scheme, netloc, path, r1.query, r1.fragment⟩

-- Sanity checks (cross-checked against CPython behaviour).
example : urljoinChars "http://h/a/b".data "c".data = "http://h/a/c".data := by decide
example : urljoinChars "http://h/a/".data "../x".data = "http://h/x".data := by decide
example : urljoinChars "http://h/a/b".data "http://other/z?q#f".data = "http://other/z?q#f".data := by decide
example : urljoinChars "http://a/b".data "HTTP://C/d".data = "http://C/d".data := by decide
example : urljoinChars "http://a/b".data "//other/p".data = "http://other/p".data := by decide
example : urljoinChars "http://a/b".data "?q=2".data = "http://a/b?q=2".data := by decide
example : urljoinChars "http://a/b/".data "./.".data = "http://a/b/".data := by decide
example : urljoinChars "http://a/b/c".data "../../../x".data = "http://a/x".data := by decide
example : urljoinChars "http://a/b".data "mailto:x@y".data = "mailto:x@y".data := by decide
example : urlsplitChars "http://Example.com/a/b?q=1#f".data =
    ⟨"http".data, "Example.com".data, "/a/b".data, "q=1".data, "f".data⟩ := by decide
example : urlsplitChars "HTTP://Host/A".data =
    ⟨"http".data, "Host".data, "/A".data, [], []⟩ := by decide

/-!
Section: `webcrawler` configuration and URL normalization

`CrawlerConfig` (`config.py`) and `Crawler.normalize_url` (`crawler.py`).
Only the fields the modelled code paths read are kept; numeric tunables
that only feed `asyncio.sleep`/`aiohttp` (timeouts, rates) are omitted.
-/

/-- The fields of `webcrawler`'s `CrawlerConfig` read by the modelled
code.  The pydantic validators require `start_url` to be absolute and
default `allowed_domains` to the start URL's netloc; theorems that need
those facts take them as hypotheses. -/
structure WcConfig where
  startUrl : Url
  maxDepth : Nat
  maxPages : Nat
  allowedDomains : List Url
  respectRobots : Bool
  userAgent : Url
deriving DecidableEq, Repr

/-- `CrawlerConfig.is_allowed_domain`: the URL's netloc must end with one
of the allowed domains. -/
def isAllowedDomain (cfg : WcConfig) (u : Url) : Bool :=
  cfg.allowedDomains.any (fun d => endsWithChars (urlsplitChars u).netloc d)

/-- `Crawler.normalize_url`: resolve against the base URL, require a
scheme, a netloc and an allowed domain, and rebuild the URL as
`scheme://netloc+path` (dropping query and fragment). -/
def normalizeUrl (cfg : WcConfig) (url base : Url) : Option Url :=
  let full := urljoinChars base url
  let p := urlsplitChars full
  if p.scheme = [] ∨ p.netloc = [] then none
  else if ¬ isAllowedDomain cfg full then none
  else some (p.scheme ++ [':', '/', '/'] ++ p.netloc ++ p.path)

/-!
Section: robots.txt model

`RobotsConfig` (`config.py`) and `Crawler.fetch_robots_txt`
(`crawler.py`).  The network is an oracle `Url → Option Url`
mapping a domain to the body of a successful (HTTP 200) fetch of
`https://domain/robots.txt`; `none` covers both a raised exception and a
non-200 status, which the code treats identically (no directive is
recorded).
-/

/-- `RobotsConfig` from `webcrawler/core/config.py`.  The crawl delay is
kept as the raw directive string (the code stores `float(...)` of it;
no claim reads the numeric value). -/
structure RobotsConfig where
  allowedPaths : List Url
  disallowedPaths : List Url
  crawlDelay : Option Url
deriving DecidableEq, Repr

/-- `RobotsConfig.is_allowed`: take the path of the argument, refuse when
a disallowed entry is a leading piece of it, otherwise consult the
explicit allow rules when there are any, otherwise allow. -/
def RobotsConfig.isAllowed (rc : RobotsConfig) (u : Url) : Bool :=
  let p := (urlsplitChars u).path
  if rc.disallowedPaths.any (fun d => startsWithChars p d) then false
  else if rc.allowedPaths ≠ [] then rc.allowedPaths.any (fun a => startsWithChars p a)
  else true

/-- The `RobotsConfig` produced when nothing was parsed (fetch failure,
non-200 status, or an empty rule set). -/
def emptyRobots : RobotsConfig := ⟨[], [], none⟩

/-- `line.split(':', 1)[1]` for a line known to contain a colon; `[]`
otherwise. -/
def afterFirstColon (l : Url) : Url := ((splitAtFirst ':' l).2).getD []

/-- An approximation of the strings accepted by Python's `float()`:
optional sign, then either a decimal literal with optional exponent or
`inf`/`infinity`/`nan` (case already lowered by the caller).  Digit-group
underscores and non-ASCII digits are not modelled; no claim depends on
the numeric value. -/
def isPyFloatBody (l : Url) : Bool :=
  let digs := fun (m : Url) => !m.isEmpty && m.all (fun c => '0' ≤ c && c ≤ '9')
  let mantissa := fun (m : Url) =>
    match splitAtFirst '.' m with
    | (before, none) => digs before
    | (before, some after) =>
      (digs before && (after.isEmpty || digs after)) ||
        (before.isEmpty && digs after)
  let withExp := fun (m : Url) =>
    match splitAtFirst 'e' (lowerChars m) with
    | (before, none) => mantissa before
    | (before, some after) =>
      mantissa before &&
        (match after with
         | '+' :: ds => digs ds
         | '-' :: ds => digs ds
         | ds => digs ds)
  let body := fun (m : Url) =>
    lowerChars m = "inf".data || lowerChars m = "infinity".data ||
      lowerChars m = "nan".data || withExp m
  match l with
  | '+' :: rest => body rest
  | '-' :: rest => body rest
  | rest => body rest

/-- `float(s)` succeeds on `s.strip()`'s result or raises `ValueError`. -/
def isPyFloat (l : Url) : Bool := isPyFloatBody (stripChars l)

/-- The accumulator of the parsing loop in `Crawler.fetch_robots_txt`:
the three collected components plus `current_agent`. -/
structure RobotsAcc where
  allowed : List Url
  disallowed : List Url
  delay : Option Url
  agent : Option Url
deriving DecidableEq, Repr

/-- One iteration of the `for line in text.split('\n')` loop of
`Crawler.fetch_robots_txt`. -/
def robotsStep (userAgent : Url) (acc : RobotsAcc) (raw : Url) : RobotsAcc :=
  let line := lowerChars (stripChars raw)
  if line = [] ∨ line.head? = some '#' then acc
  else if startsWithChars line "user-agent:".data then
    { acc with agent := some (stripChars (afterFirstColon line)) }
  else if acc.agent = some ['*'] ∨ acc.agent = some userAgent then
    if startsWithChars line "allow:".data then
      { acc with allowed := acc.allowed ++ [stripChars (afterFirstColon line)] }
    else if startsWithChars line "disallow:".data then
      { acc with disallowed := acc.disallowed ++ [stripChars (afterFirstColon line)] }
    else if startsWithChars line "crawl-delay:".data then
      let v := stripChars (afterFirstColon line)
      if isPyFloat v then { acc with delay := some v } else acc
    else acc
  else acc

/-- The parsing part of `Crawler.fetch_robots_txt` applied to a fetched
robots.txt body (status 200). -/
def parseRobotsText (userAgent : Url) (text : Url) : RobotsConfig :=
  let acc := (splitOnChar '\n' text).foldl (robotsStep userAgent) ⟨[], [], none, none⟩
  ⟨acc.allowed, acc.disallowed, acc.delay⟩

/-- `Crawler.fetch_robots_txt` with its per-domain cache: on a cache hit
return the cached entry; otherwise parse the oracle's body (or record the
empty rule set when the fetch failed or was non-200) and cache it. -/
def fetchRobotsTxt (userAgent : Url) (robotsSource : Url → Option Url)
    (domain : Url) (cache : List (Url × RobotsConfig)) :
    RobotsConfig × List (Url × RobotsConfig) :=
  match cache.lookup domain with
  | some rc => (rc, cache)
  | none =>
    let rc :=
      match robotsSource domain with
      | none => emptyRobots
      | some text => parseRobotsText userAgent text
    (rc, cache ++ [(domain, rc)])

-- Sanity checks (cross-checked against CPython behaviour).
example :
    parseRobotsText "cloudcurio crawler".data
      "User-agent: *\nDisallow: /private/\nAllow: /public/\nCrawl-delay: 2.5".data =
      ⟨["/public/".data], ["/private/".data], some "2.5".data⟩ := by decide
example : (⟨[], ["/private/".data], none⟩ : RobotsConfig).isAllowed
    "http://h/private/page".data = false := by decide
example : (⟨[], ["/private/".data], none⟩ : RobotsConfig).isAllowed
    "http://h/public/page".data = true := by decide
example : emptyRobots.isAllowed "http://h/anything".data = true := by decide

/-!
Section: The `webcrawler` crawl loop

`Crawler.crawl_page` / `Crawler.crawl` (`webcrawler/core/crawler.py`).
The generator is a recursive coroutine; it is modelled as a state
transformer with a fuel parameter bounding the recursion depth (Python
itself has a recursion limit); every claim proved about it holds for all
fuels.  The page fetch (`session.get`) is the oracle
`web : Url → Option (List Url)`: `some hrefs` models a 200 response whose
parsed HTML contains the given `href` attributes, `none` models a non-200
status or a raised exception, which the code treats alike (no yield,
move on).  Yields are recorded as `(url, depth)` pairs and every issued
page fetch is recorded in `fetchLog`.
-/

/-- The mutable state of one `Crawler` run: `visited_urls`,
`robots_cache`, the pages yielded so far and the fetches issued so far. -/
structure WcState where
  visited : List Url
  robotsCache : List (Url × RobotsConfig)
  yields : List (Url × Nat)
  fetchLog : List Url
deriving DecidableEq, Repr

/-- The `for link in links` loop at the end of `crawl_page`: before each
recursive call, return early if the page budget is reached.  The
recursive call on each link is abstracted as `handler` so that the loop
is structurally recursive on the link list. -/
def wcLinksLoop (maxPages : Nat) (handler : Url → WcState → WcState) :
    List Url → WcState → WcState
  | [], s => s
  | l :: ls, s =>
    if maxPages ≤ s.visited.length then s
    else wcLinksLoop maxPages handler ls (handler l s)

/-- The body of `Crawler.crawl_page(url, depth)`: stop on excessive
depth or a visited URL; mark visited; gate through robots.txt; fetch;
extract and normalize links; yield; then run the link loop, where
`recurse l d s` stands for the recursive `crawl_page(l, d)` call. -/
def wcPageBody (cfg : WcConfig) (web : Url → Option (List Url))
    (rsrc : Url → Option Url) (recurse : Url → Nat → WcState → WcState)
    (url : Url) (depth : Nat) (s : WcState) : WcState :=
  if cfg.maxDepth < depth then s
  else if url ∈ s.visited then s
  else
    let s1 : WcState := { s with visited := s.visited ++ [url] }
    let gate :=
      if cfg.respectRobots then
        let fr := fetchRobotsTxt cfg.userAgent rsrc (urlsplitChars url).netloc s1.robotsCache
        (fr.1.isAllowed url, { s1 with robotsCache := fr.2 })
      else (true, s1)
    if gate.1 then
      match web url with
      | none => { gate.2 with fetchLog := gate.2.fetchLog ++ [url] }
      | some hrefs =>
        let links := hrefs.filterMap (fun h => normalizeUrl cfg h url)
        let s3 : WcState :=
          { gate.2 with
              fetchLog := gate.2.fetchLog ++ [url],
              yields := gate.2.yields ++ [(url, depth)] }
        wcLinksLoop cfg.maxPages (fun l s' => recurse l (depth + 1) s') links s3
    else gate.2

/-- `Crawler.crawl_page(url, depth)`, with a fuel parameter bounding the
recursion depth (the generator recurses depth-first). -/
def wcCrawlPage (cfg : WcConfig) (web : Url → Option (List Url))
    (rsrc : Url → Option Url) : Nat → Url → Nat → WcState → WcState
  | 0, _, _, s => s
  | fuel + 1, url, depth, s =>
    wcPageBody cfg web rsrc (fun l d s' => wcCrawlPage cfg web rsrc fuel l d s') url depth s

/-- The clean state `Crawler.__init__` produces. -/
def wcInitState : WcState := ⟨[], [], [], []⟩

/-- `Crawler.crawl`: crawl from the configured start URL at depth 0. -/
def wcCrawl (cfg : WcConfig) (web : Url → Option (List Url))
    (rsrc : Url → Option Url) (fuel : Nat) : WcState :=
  wcCrawlPage cfg web rsrc fuel cfg.startUrl 0 wcInitState

/-- The site of the C3 counterexample: `s` links to `a` and `b`, `a`
links to `c` (robots off, generous budgets). -/
def c3Cfg : WcConfig :=
  ⟨"http://h/s".data, 3, 10, ["h".data], false, "bot".data⟩
/-- The C3 counterexample web: the recursive generator yields `c`
(depth 2) before `b` (depth 1). -/
def c3Web : Url → Option (List Url) := fun u =>
  [("http://h/s".data, ["/a".data, "/b".data]),
   ("http://h/a".data, ["/c".data]),
   ("http://h/b".data, ([] : List Url)),
   ("http://h/c".data, ([] : List Url))].lookup u
example : (wcCrawl c3Cfg c3Web (fun _ => none) 10).yields =
    [("http://h/s".data, 0), ("http://h/a".data, 1),
     ("http://h/c".data, 2), ("http://h/b".data, 1)] := by decide

/-!
Section: The `mcp_server` PlaywrightCrawler

`PlaywrightCrawler.crawl`, `_process_url`, `_filter_urls`,
`_is_allowed_by_robots` (`mcp_server/core/crawler.py`).  The browser is
an oracle `web : Url → Nat → AttemptRes` giving, for a URL and a 0-based
attempt index, the outcome of one `page.goto` + extraction + classification
round:

* `pageOk accepted links`: navigation and `_extract_content` succeeded;
  `accepted` says whether the classified `content_type.type` is in
  `config.content_types` (when it is not, `_process_url` returns `None`);
  `links` are the absolute `http(s)` hrefs the page exposes;
* `extractFail`: `_extract_content` returned `None` (`_process_url`
  returns `None` without retrying);
* `exn`: the attempt raised (navigation error, timeout, …).

Results are recorded as `(url, depth)` pairs, fetches (calls to
`page.goto`) in `fetchLog`, and the back-off sleeps symbolically as
rationals.
-/

/-- The fields of `mcp_server`'s `CrawlerConfig` read by the modelled
code paths.  Pydantic enforces `max_depth ≥ 1`, `max_pages ≥ 1`,
`retry_attempts ≥ 1`, `retry_delay > 0`; theorems take what they need of
this as hypotheses. -/
structure McpConfig where
  startUrl : Url
  maxDepth : Nat
  maxPages : Nat
  retryAttempts : Nat
  retryDelay : ℚ
  respectRobots : Bool
deriving DecidableEq

/-- Outcome of one attempt of the `_process_url` retry loop. -/
inductive AttemptRes where
  | pageOk (accepted : Bool) (links : List Url)
  | extractFail
  | exn
deriving DecidableEq

/-- What one call of `_process_url` produces: its Python return value or
raised exception (`Except.error`), the number of `page.goto` calls it
made, and the sleeps it performed. -/
structure ProcOut where
  result : Except Unit (Option (List Url))
  gotos : Nat
  sleeps : List ℚ

/-- The `for attempt in range(retry_attempts)` loop of `_process_url`:
`remaining` counts the iterations left, `i` is the current 0-based
attempt index.  On an exception in the last iteration the exception is
re-raised; otherwise the loop sleeps `retry_delay * (attempt + 1)` and
retries.  If the loop runs out (only possible when `retry_attempts = 0`,
which pydantic forbids) the function falls through returning `None`. -/
def processLoop (cfg : McpConfig) (web : Url → Nat → AttemptRes) (url : Url) :
    Nat → Nat → ProcOut
  | 0, _ => ⟨Except.ok none, 0, []⟩
  | r + 1, i =>
    match web url i with
    | .pageOk accepted links =>
      if accepted then ⟨Except.ok (some links), 1, []⟩
      else ⟨Except.ok none, 1, []⟩
    | .extractFail => ⟨Except.ok none, 1, []⟩
    | .exn =>
      if r = 0 then ⟨Except.error (), 1, []⟩
      else
        let rest := processLoop cfg web url r (i + 1)
        ⟨rest.result, rest.gotos + 1, cfg.retryDelay * ((i : ℚ) + 1) :: rest.sleeps⟩

/-- `PlaywrightCrawler._process_url` (the retry loop from attempt 0). -/
def processUrl (cfg : McpConfig) (web : Url → Nat → AttemptRes) (url : Url) : ProcOut :=
  processLoop cfg web url cfg.retryAttempts 0

/-- `PlaywrightCrawler._is_allowed_by_robots`: `True` when
`respect_robots` is off, and the robots.txt check itself is an
unimplemented placeholder returning `True`. -/
def mcpRobotsAllowed (cfg : McpConfig) (_url : Url) : Bool :=
  if ¬ cfg.respectRobots then true
  else true

/-- The `for url in urls` loop of `_filter_urls` with its `filtered`
accumulator: keep URLs on the start URL's netloc that are neither
visited nor already kept. -/
def mcpFilterAux (baseDomain : Url) (visited : List Url) :
    List Url → List Url → List Url
  | [], acc => acc
  | u :: us, acc =>
    if (urlsplitChars u).netloc = baseDomain ∧ u ∉ visited ∧ u ∉ acc then
      mcpFilterAux baseDomain visited us (acc ++ [u])
    else mcpFilterAux baseDomain visited us acc

/-- `PlaywrightCrawler._filter_urls`. -/
def mcpFilterUrls (cfg : McpConfig) (visited : List Url) (urls : List Url) : List Url :=
  mcpFilterAux (urlsplitChars cfg.startUrl).netloc visited urls []

/-- The mutable state of one `PlaywrightCrawler.crawl` run.
`discoveryLog` is a ghost history (like `fetchLog`): it records, in
order, every `(url, depth)` entry ever placed on the queue — the start
URL at construction and each batch appended by `queue.extend` — so that
discovery order can be stated. -/
structure McpState where
  queue : List (Url × Nat)
  visited : List Url
  results : List (Url × Nat)
  fetchLog : List Url
  discoveryLog : List (Url × Nat)
deriving DecidableEq

/-- The `while queue and len(visited) < max_pages` loop of
`PlaywrightCrawler.crawl`, with a fuel bound on the number of
iterations; every claim proved about it holds for all fuels.  On a
successful accepted extraction, `_process_url` has already added the URL
to `visited` before `crawl` filters the links against it. -/
def mcpCrawl (cfg : McpConfig) (web : Url → Nat → AttemptRes) :
    Nat → McpState → McpState
  | 0, s => s
  | fuel + 1, s =>
    match s.queue with
    | [] => s
    | (url, depth) :: rest =>
      if cfg.maxPages ≤ s.visited.length then s
      else if cfg.maxDepth < depth ∨ url ∈ s.visited then
        mcpCrawl cfg web fuel { s with queue := rest }
      else if ¬ mcpRobotsAllowed cfg url then
        mcpCrawl cfg web fuel { s with queue := rest }
      else
        let pr := processUrl cfg web url
        let log := s.fetchLog ++ List.replicate pr.gotos url
        match pr.result with
        | .error _ => mcpCrawl cfg web fuel { s with queue := rest, fetchLog := log }
        | .ok none => mcpCrawl cfg web fuel { s with queue := rest, fetchLog := log }
        | .ok (some links) =>
          let visited' := s.visited ++ [url]
          let news := (mcpFilterUrls cfg visited' links).map (fun u => (u, depth + 1))
          let queue' := if depth < cfg.maxDepth then rest ++ news else rest
          let dlog' :=
            if depth < cfg.maxDepth then s.discoveryLog ++ news else s.discoveryLog
          mcpCrawl cfg web fuel ⟨queue', visited', s.results ++ [(url, depth)], log, dlog'⟩

/-- The initial crawl state: the start URL at depth 0 queued (and
discovered), nothing visited. -/
def mcpInit (cfg : McpConfig) : McpState :=
  ⟨[(cfg.startUrl, 0)], [], [], [], [(cfg.startUrl, 0)]⟩

/-- `PlaywrightCrawler.crawl()` from a fresh crawler. -/
def mcpCrawlRun (cfg : McpConfig) (web : Url → Nat → AttemptRes) (fuel : Nat) : McpState :=
  mcpCrawl cfg web fuel (mcpInit cfg)

/-- The PlaywrightCrawler run of the C1 counterexample (one attempt per
URL, depth 3, page budget 10). -/
def c1Cfg : McpConfig := ⟨"http://h/s".data, 3, 10, 1, 1, true⟩
/-- The C1 counterexample web: `s` links to `b` and `c`, `b` links to
`c` again, and `c`'s classification is rejected (`_process_url` returns
`None`), so `c` is never marked visited. -/
def c1Web : Url → Nat → AttemptRes := fun u _ =>
  if u = "http://h/s".data then .pageOk true ["http://h/b".data, "http://h/c".data]
  else if u = "http://h/b".data then .pageOk true ["http://h/c".data]
  else if u = "http://h/c".data then .pageOk false []
  else .extractFail
example : (mcpCrawlRun c1Cfg c1Web 10).fetchLog =
    ["http://h/s".data, "http://h/b".data, "http://h/c".data, "http://h/c".data] := by decide

/-!
Section: Content classification

`PlaywrightCrawler._classify_content`.  Python `float` arithmetic is
modelled with `ℚ`; the only values that arise are `0, 1/3, 2/3, 1`, and
the comparisons against the literals `0.7` and `0.4` decide identically
for the exact rationals and their IEEE-754 counterparts.
-/

/-- Python's `sub in s` substring test. -/
def containsSub (l sub : Url) : Bool :=
  match l with
  | [] => sub.isEmpty
  | _ :: rest => startsWithChars l sub || containsSub rest sub

/-- `re.search(r'/(docs|documentation|wiki|guide|manual)/', url, re.I)`
viewed as a case-insensitive substring test for one of the five
`/word/` snippets. -/
def urlPatternHit (url : Url) : Bool :=
  (["docs", "documentation", "wiki", "guide", "manual"].map String.data).any
    (fun kw => containsSub (lowerChars url) ('/' :: (kw ++ ['/'])))

/-- `any(key for key in metadata if "documentation" in key.lower())`. -/
def metadataHit (keys : List Url) : Bool :=
  keys.any (fun k => containsSub (lowerChars k) "documentation".data)

/-- The five documentation-flavoured lexical markers. -/
def contentMarkers : List Url :=
  ["installation", "getting started", "api reference", "usage", "example"].map String.data

/-- `any(marker in text for marker in markers)` over the lowered text. -/
def markersHit (text : Url) : Bool :=
  contentMarkers.any (fun m => containsSub (lowerChars text) m)

/-- The `ContentType` pydantic model. -/
structure ContentType where
  type : Url
  confidence : ℚ
  features : List Url
deriving DecidableEq

/-- `PlaywrightCrawler._classify_content`, as a function of the page URL,
the extracted metadata keys and the extracted text. -/
def classifyContent (url : Url) (metadataKeys : List Url) (text : Url) : ContentType :=
  let features :=
    (if urlPatternHit url then ["url_pattern".data] else []) ++
      (if metadataHit metadataKeys then ["metadata_tag".data] else []) ++
      (if markersHit text then ["content_markers".data] else [])
  let confidence : ℚ := min ((features.length : ℚ) / 3) 1
  let docType :=
    if 7 / 10 ≤ confidence then "documentation".data
    else if 2 / 5 ≤ confidence then "guide".data
    else "unknown".data
  ⟨docType, confidence, features⟩

/-!
Section: Asset download

`PlaywrightCrawler._download_asset`.  The transport is two oracles:
`probe` for the HEAD request (header parsing included: a missing
`content-length` reads as 0, an unparsable one raises, i.e. is an
`Except.error`), `fetch` for the GET request giving the status and the
body length.  `hashName` stands for `hashlib.sha256(url).hexdigest()`.
The second component of the result lists the file writes performed. -/

/-- The `Asset` pydantic model (`local_path` and `error` optional,
`downloaded` defaulting to `False`). -/
structure Asset where
  url : Url
  fileType : Url
  contentType : Url
  size : Nat
  localPath : Option Url
  downloaded : Bool
  error : Option Url
deriving DecidableEq

/-- `PurePath.name` of the URL: its last nonempty `/`-separated piece. -/
def pathName (u : Url) : Url :=
  ((splitOnChar '/' u).filter (fun s => !s.isEmpty)).getLastD []

/-- `Path(url).suffix`: the part of the name from its last dot on, when
that dot is neither the first nor the last character of the name. -/
def pathSuffix (u : Url) : Url :=
  let name := pathName u
  match splitAtFirst '.' name.reverse with
  | (extRev, some restRev) =>
    if restRev ≠ [] ∧ extRev ≠ [] then '.' :: extRev.reverse else []
  | (_, none) => []

/-- `PlaywrightCrawler._download_asset`. -/
def downloadAsset (maxAssetSize : Nat) (hashName : Url → Url) (assetDir : Url)
    (probe : Except Url (Url × Nat)) (fetch : Except Url (Nat × Nat)) (url : Url) :
    Option Asset × List (Url × Nat) :=
  match probe with
  | .error e => (some ⟨url, pathSuffix url, "unknown".data, 0, none, false, some e⟩, [])
  | .ok (ct, size) =>
    if maxAssetSize < size then
      (some ⟨url, pathSuffix url, ct, size, none, false, some "File too large".data⟩, [])
    else
      match fetch with
      | .error e => (some ⟨url, pathSuffix url, "unknown".data, 0, none, false, some e⟩, [])
      | .ok (status, bodyLen) =>
        if status = 200 then
          let filePath := assetDir ++ '/' :: (hashName url ++ pathSuffix url)
          (some ⟨url, pathSuffix url, ct, size, some filePath, true, none⟩, [(filePath, bodyLen)])
        else (none, [])

-- Sanity checks (cross-checked against CPython behaviour).
example : pathSuffix "http://x/a.png".data = ".png".data := by decide
example : pathSuffix "http://x/archive".data = [] := by decide
example : pathSuffix "http://x/.hidden".data = [] := by decide
example : (classifyContent "http://h/docs/intro".data ["x-documentation-tool".data]
    "Installation and Usage".data).features =
    ["url_pattern".data, "metadata_tag".data, "content_markers".data] := by decide
example : (classifyContent "http://h/docs/intro".data []
    "Installation and Usage".data).features.length = 2 := by decide
example : (classifyContent "http://h/blog".data [] "hello".data).features = [] := by decide

/-!
Section: claim theorems
-/

/-- C7 — For every page, the classification confidence equals
`min(|features| / 3, 1.0)`, where `features` is the subset of the three
signals (URL path pattern, documentation metadata key, documentation
content marker) that are present; the resulting type is
`"documentation"` iff `confidence ≥ 0.7`, `"guide"` iff
`0.4 ≤ confidence < 0.7`, and `"unknown"` otherwise. -/
theorem claim_C7_classification (url : Url) (metadataKeys : List Url) (text : Url) :
    (classifyContent url metadataKeys text).confidence =
      min (((classifyContent url metadataKeys text).features.length : ℚ) / 3) 1 ∧
    ((classifyContent url metadataKeys text).type = "documentation".data ↔
      7 / 10 ≤ (classifyContent url metadataKeys text).confidence) ∧
    ((classifyContent url metadataKeys text).type = "guide".data ↔
      (2 / 5 ≤ (classifyContent url metadataKeys text).confidence ∧
        (classifyContent url metadataKeys text).confidence < 7 / 10)) ∧
    ((classifyContent url metadataKeys text).type = "unknown".data ↔
      (classifyContent url metadataKeys text).confidence < 2 / 5) ∧
    ("url_pattern".data ∈ (classifyContent url metadataKeys text).features ↔
      urlPatternHit url = true) ∧
    ("metadata_tag".data ∈ (classifyContent url metadataKeys text).features ↔
      metadataHit metadataKeys = true) ∧
    ("content_markers".data ∈ (classifyContent url metadataKeys text).features ↔
      markersHit text = true) := by
  unfold classifyContent
  generalize urlPatternHit url = b1
  generalize metadataHit metadataKeys = b2
  generalize markersHit text = b3
  cases b1 <;> cases b2 <;> cases b3 <;>
    refine ⟨?_, ?_, ?_, ?_, ?_, ?_, ?_⟩ <;>
    first
      | decide
      | (norm_num
         all_goals decide)

/-- C8 — For every asset candidate whose probed size exceeds
`max_asset_size`, asset processing returns an Asset record with
`downloaded = false` and a non-empty error and writes no bytes to
storage; and for every transport failure during the probe or the
download, it returns an Asset with `error` set instead of raising (the
model is a total function, so an asset failure is never fatal to the
page's processing). -/
theorem claim_C8_asset_failures (maxAssetSize : Nat) (hashName : Url → Url)
    (assetDir : Url) (url : Url) :
    (∀ ct size fetch, maxAssetSize < size →
      downloadAsset maxAssetSize hashName assetDir (Except.ok (ct, size)) fetch url =
        (some ⟨url, pathSuffix url, ct, size, none, false, some "File too large".data⟩,
          [])) ∧
    (∀ e fetch,
      downloadAsset maxAssetSize hashName assetDir (Except.error e) fetch url =
        (some ⟨url, pathSuffix url, "unknown".data, 0, none, false, some e⟩, [])) ∧
    (∀ ct size e, ¬ maxAssetSize < size →
      downloadAsset maxAssetSize hashName assetDir (Except.ok (ct, size))
          (Except.error e) url =
        (some ⟨url, pathSuffix url, "unknown".data, 0, none, false, some e⟩, [])) := by
  refine ⟨?_, ?_, ?_⟩
  · intro ct size fetch h
    simp [downloadAsset, h]
  · intro e fetch
    simp [downloadAsset]
  · intro ct size e h
    simp [downloadAsset, h]

/-- Witness for C8: a 11-byte probe against a 10-byte limit yields the
un-downloaded, error-carrying Asset and no write. -/
theorem claim_C8_asset_failures_witness :
    10 < 11 ∧
    downloadAsset 10 (fun _ => "hh".data) "data/assets".data
        (Except.ok ("image/png".data, 11)) (Except.ok (200, 5)) "http://h/big.png".data =
      (some ⟨"http://h/big.png".data, ".png".data, "image/png".data, 11, none, false,
        some "File too large".data⟩, []) :=
  ⟨by decide,
    (claim_C8_asset_failures 10 (fun _ => "hh".data) "data/assets".data
      "http://h/big.png".data).1 "image/png".data 11 (Except.ok (200, 5)) (by decide)⟩

/-- The concrete configuration of the C4 robots scenario: domain `h`,
robots respected. -/
def c4Cfg : WcConfig := ⟨"http://h/start".data, 3, 10, ["h".data], true, "bot".data⟩

/-- The C4 scenario site: the start page links to `/private/page` and
`/public/page`. -/
def c4Web : Url → Option (List Url) := fun u =>
  if u = "http://h/start".data then some ["/private/page".data, "/public/page".data]
  else if u = "http://h/public/page".data then some []
  else if u = "http://h/private/page".data then some []
  else none

/-- The C4 scenario robots.txt: `Disallow: /private/` for every agent. -/
def c4Robots : Url → Option Url := fun d =>
  if d = "h".data then some "User-agent: *\nDisallow: /private/".data else none

/-- C4 — For every RobotsPolicy and every path: if any registered
disallow entry is a leading piece of the path, `is_allowed` returns
false; otherwise, if the explicit allow-list is non-empty, `is_allowed`
returns true iff some allow entry is a leading piece of the path;
otherwise it returns true (default-allow).  In particular, under a rule
`Disallow: /private/`, the URL `/private/page` is skipped (never
fetched) while `/public/page` is fetched, in the same domain and run. -/
theorem claim_C4_robots_allowed (rc : RobotsConfig) (u : Url) :
    (rc.isAllowed u = true ↔
      ((¬ ∃ d ∈ rc.disallowedPaths, startsWithChars (urlsplitChars u).path d = true) ∧
        (rc.allowedPaths = [] ∨
          ∃ a ∈ rc.allowedPaths, startsWithChars (urlsplitChars u).path a = true))) ∧
    "http://h/private/page".data ∉ (wcCrawl c4Cfg c4Web c4Robots 10).fetchLog ∧
    "http://h/public/page".data ∈ (wcCrawl c4Cfg c4Web c4Robots 10).fetchLog := by
  refine ⟨?_, by decide, by decide⟩
  by_cases hd : (rc.disallowedPaths.any fun d => startsWithChars (urlsplitChars u).path d) = true
  · have hd' : ∃ d ∈ rc.disallowedPaths, startsWithChars (urlsplitChars u).path d = true := by
      simpa [List.any_eq_true] using hd
    simp [RobotsConfig.isAllowed, hd, hd']
  · have hd' : ¬ ∃ d ∈ rc.disallowedPaths, startsWithChars (urlsplitChars u).path d = true := by
      simpa [List.any_eq_true] using hd
    by_cases ha : rc.allowedPaths = []
    · simp [RobotsConfig.isAllowed, hd, hd', ha]
    · simp [RobotsConfig.isAllowed, hd, hd', ha, List.any_eq_true]

-- Generic invariant lemmas for the link loop.

theorem wcLinksLoop_inv (maxPages : Nat) (handler : Url → WcState → WcState)
    (P : WcState → Prop)
    (hStep : ∀ l s, P s → ¬ maxPages ≤ s.visited.length → P (handler l s)) :
    ∀ ls s, P s → P (wcLinksLoop maxPages handler ls s) := by
  intro ls
  induction ls with
  | nil =>
    intro s h
    simpa [wcLinksLoop] using h
  | cons l ls ih =>
    intro s h
    rw [wcLinksLoop]
    by_cases hb : maxPages ≤ s.visited.length
    · rw [if_pos hb]
      exact h
    · rw [if_neg hb]
      exact ih _ (hStep l s h hb)

theorem wcLinksLoop_rel (maxPages : Nat) (h1 h2 : Url → WcState → WcState)
    (R : WcState → WcState → Prop)
    (hVis : ∀ s1 s2, R s1 s2 → s1.visited = s2.visited)
    (hStep : ∀ l s1 s2, R s1 s2 → R (h1 l s1) (h2 l s2)) :
    ∀ ls s1 s2, R s1 s2 →
      R (wcLinksLoop maxPages h1 ls s1) (wcLinksLoop maxPages h2 ls s2) := by
  intro ls
  induction ls with
  | nil =>
    intro s1 s2 h
    simpa [wcLinksLoop] using h
  | cons l ls ih =>
    intro s1 s2 h
    rw [wcLinksLoop, wcLinksLoop]
    by_cases hb : maxPages ≤ s2.visited.length
    · rw [if_pos (by rw [hVis s1 s2 h]; exact hb), if_pos hb]
      exact h
    · rw [if_neg (by rw [hVis s1 s2 h]; exact hb), if_neg hb]
      exact ih _ _ (hStep l s1 s2 h)

/-- Case analysis of one `crawl_page` body: it either returns the state
unchanged (depth exceeded / already visited), marks the URL visited and
stops (robots-disallowed), marks it visited and logs a fetch (non-200 or
exception), or marks, logs, yields and runs the link loop. -/
theorem wcPageBody_cases (cfg : WcConfig) (web : Url → Option (List Url))
    (rsrc : Url → Option Url) (recurse : Url → Nat → WcState → WcState)
    (url : Url) (depth : Nat) (s : WcState) :
    wcPageBody cfg web rsrc recurse url depth s = s ∨
    (∃ c', url ∉ s.visited ∧
      wcPageBody cfg web rsrc recurse url depth s =
        ⟨s.visited ++ [url], c', s.yields, s.fetchLog⟩) ∨
    (∃ c', url ∉ s.visited ∧
      wcPageBody cfg web rsrc recurse url depth s =
        ⟨s.visited ++ [url], c', s.yields, s.fetchLog ++ [url]⟩) ∨
    (∃ c' hrefs, web url = some hrefs ∧ url ∉ s.visited ∧ ¬ cfg.maxDepth < depth ∧
      wcPageBody cfg web rsrc recurse url depth s =
        wcLinksLoop cfg.maxPages (fun l s' => recurse l (depth + 1) s')
          (hrefs.filterMap (fun h => normalizeUrl cfg h url))
          ⟨s.visited ++ [url], c', s.yields ++ [(url, depth)], s.fetchLog ++ [url]⟩) := by
  by_cases hd : cfg.maxDepth < depth
  · left
    simp [wcPageBody, hd]
  by_cases hv : url ∈ s.visited
  · left
    simp [wcPageBody, hd, hv]
  cases hR : cfg.respectRobots
  · cases hw : web url with
    | none =>
      right; right; left
      exact ⟨s.robotsCache, hv, by simp [wcPageBody, hd, hv, hR, hw]⟩
    | some hrefs =>
      right; right; right
      exact ⟨s.robotsCache, hrefs, rfl, hv, hd, by simp [wcPageBody, hd, hv, hR, hw]⟩
  · by_cases hA :
      (fetchRobotsTxt cfg.userAgent rsrc (urlsplitChars url).netloc s.robotsCache).1.isAllowed
        url = true
    · cases hw : web url with
      | none =>
        right; right; left
        refine ⟨(fetchRobotsTxt cfg.userAgent rsrc (urlsplitChars url).netloc
          s.robotsCache).2, hv, ?_⟩
        simp [wcPageBody, hd, hv, hR, hw, hA]
      | some hrefs =>
        right; right; right
        refine ⟨(fetchRobotsTxt cfg.userAgent rsrc (urlsplitChars url).netloc
          s.robotsCache).2, hrefs, rfl, hv, hd, ?_⟩
        simp [wcPageBody, hd, hv, hR, hw, hA]
    · right; left
      refine ⟨(fetchRobotsTxt cfg.userAgent rsrc (urlsplitChars url).netloc
        s.robotsCache).2, hv, ?_⟩
      simp [wcPageBody, hd, hv, hR, hA]

/-- The dedup invariant of the `webcrawler` `Crawler`: the fetch log has
no duplicates, and only visited URLs are ever fetched. -/
def wcLogInv (s : WcState) : Prop :=
  s.fetchLog.Nodup ∧ ∀ u ∈ s.fetchLog, u ∈ s.visited

theorem wcLogInv_extend (s : WcState) (url : Url) (hnv : url ∉ s.visited)
    (h : wcLogInv s) :
    (s.fetchLog ++ [url]).Nodup ∧
      ∀ u ∈ s.fetchLog ++ [url], u ∈ s.visited ++ [url] := by
  constructor
  · refine List.Nodup.append h.1 (List.nodup_singleton url) ?_
    intro a ha hb
    rw [List.mem_singleton] at hb
    subst hb
    exact hnv (h.2 a ha)
  · intro u hu
    rcases List.mem_append.mp hu with hu | hu
    · exact List.mem_append_left _ (h.2 u hu)
    · exact List.mem_append_right _ hu

theorem wcPageBody_log (cfg : WcConfig) (web : Url → Option (List Url))
    (rsrc : Url → Option Url) (recurse : Url → Nat → WcState → WcState)
    (hRec : ∀ l d s, wcLogInv s → wcLogInv (recurse l d s)) :
    ∀ url depth s, wcLogInv s → wcLogInv (wcPageBody cfg web rsrc recurse url depth s) := by
  intro url depth s h
  rcases wcPageBody_cases cfg web rsrc recurse url depth s with
    h1 | ⟨c', hnv, heq⟩ | ⟨c', hnv, heq⟩ | ⟨c', hrefs, hw, hnv, hd, heq⟩
  · rw [h1]
    exact h
  · rw [heq]
    exact ⟨h.1, fun u hu => List.mem_append_left _ (h.2 u hu)⟩
  · rw [heq]
    exact wcLogInv_extend s url hnv h
  · rw [heq]
    exact wcLinksLoop_inv cfg.maxPages _ wcLogInv
      (fun l s' hs _ => hRec l (depth + 1) s' hs) _ _ (wcLogInv_extend s url hnv h)

theorem wcCrawlPage_log (cfg : WcConfig) (web : Url → Option (List Url))
    (rsrc : Url → Option Url) :
    ∀ fuel url depth s, wcLogInv s →
      wcLogInv (wcCrawlPage cfg web rsrc fuel url depth s) := by
  intro fuel
  induction fuel with
  | zero =>
    intro url depth s h
    simpa [wcCrawlPage] using h
  | succ fuel ih =>
    intro url depth s h
    simp only [wcCrawlPage]
    exact wcPageBody_log cfg web rsrc _ (fun l d s' hs => ih l d s' hs) url depth s h

/-- C1 counterexample — As stated, the claim is false for the
`PlaywrightCrawler`: with start page `s` linking to `b` and `c`, `b`
linking to `c` again, and `c`'s processing rejected by classification
(so `c` never enters `visited_urls`), one crawl run issues two fetches
of `http://h/c`. -/
theorem claim_C1_counterexample :
    (mcpCrawlRun c1Cfg c1Web 10).fetchLog.count "http://h/c".data = 2 := by decide

/-- C1 amended — Each crawl run of the `webcrawler` `Crawler`
fetches every URL at most once (the visited set is tested and updated
before the fetch, so the fetch log has no duplicates); the
`PlaywrightCrawler` marks a URL visited only after a successful,
accepted extraction, so a URL whose processing fails or is rejected can
be fetched again when it is reachable from several pages. -/
theorem claim_C1_amended_dedup (cfg : WcConfig) (web : Url → Option (List Url))
    (rsrc : Url → Option Url) (fuel : Nat) :
    (wcCrawl cfg web rsrc fuel).fetchLog.Nodup :=
  (wcCrawlPage_log cfg web rsrc fuel cfg.startUrl 0 wcInitState
    ⟨List.nodup_nil, by simp [wcInitState]⟩).1

/-- The budget/depth invariant of the `webcrawler` `Crawler`. -/
def wcBoundsInv (cfg : WcConfig) (s : WcState) : Prop :=
  s.visited.length ≤ cfg.maxPages ∧ ∀ y ∈ s.yields, y.2 ≤ cfg.maxDepth

theorem wcPageBody_bounds (cfg : WcConfig) (web : Url → Option (List Url))
    (rsrc : Url → Option Url) (recurse : Url → Nat → WcState → WcState)
    (hRec : ∀ l d s, wcBoundsInv cfg s → s.visited.length < cfg.maxPages →
      wcBoundsInv cfg (recurse l d s)) :
    ∀ url depth s, wcBoundsInv cfg s → s.visited.length < cfg.maxPages →
      wcBoundsInv cfg (wcPageBody cfg web rsrc recurse url depth s) := by
  intro url depth s h hlt
  rcases wcPageBody_cases cfg web rsrc recurse url depth s with
    h1 | ⟨c', hnv, heq⟩ | ⟨c', hnv, heq⟩ | ⟨c', hrefs, hw, hnv, hd, heq⟩
  · rw [h1]
    exact h
  · rw [heq]
    exact ⟨by simp only [List.length_append, List.length_singleton]; omega, h.2⟩
  · rw [heq]
    exact ⟨by simp only [List.length_append, List.length_singleton]; omega, h.2⟩
  · rw [heq]
    apply wcLinksLoop_inv cfg.maxPages _ (wcBoundsInv cfg)
      (fun l s' hs hguard => hRec l (depth + 1) s' hs (by omega))
    constructor
    · simp only [List.length_append, List.length_singleton]
      omega
    · intro y hy
      rcases List.mem_append.mp hy with hy | hy
      · exact h.2 y hy
      · rw [List.mem_singleton] at hy
        subst hy
        omega

theorem wcCrawlPage_bounds (cfg : WcConfig) (web : Url → Option (List Url))
    (rsrc : Url → Option Url) :
    ∀ fuel url depth s, wcBoundsInv cfg s → s.visited.length < cfg.maxPages →
      wcBoundsInv cfg (wcCrawlPage cfg web rsrc fuel url depth s) := by
  intro fuel
  induction fuel with
  | zero =>
    intro url depth s h _
    simpa [wcCrawlPage] using h
  | succ fuel ih =>
    intro url depth s h hlt
    simp only [wcCrawlPage]
    exact wcPageBody_bounds cfg web rsrc _ (fun l d s' hs hl => ih l d s' hs hl)
      url depth s h hlt

/-- The robots gate of the PlaywrightCrawler always allows (the check is
a placeholder in the source). -/
theorem mcpRobotsAllowed_true (cfg : McpConfig) (u : Url) :
    mcpRobotsAllowed cfg u = true := by
  simp [mcpRobotsAllowed]

/-- The budget/depth invariant of the PlaywrightCrawler. -/
def mcpBoundsInv (cfg : McpConfig) (s : McpState) : Prop :=
  s.visited.length ≤ cfg.maxPages ∧ ∀ r ∈ s.results, r.2 ≤ cfg.maxDepth

theorem mcpCrawl_bounds (cfg : McpConfig) (web : Url → Nat → AttemptRes) :
    ∀ fuel s, mcpBoundsInv cfg s → mcpBoundsInv cfg (mcpCrawl cfg web fuel s) := by
  intro fuel
  induction fuel with
  | zero =>
    intro s h
    simpa [mcpCrawl] using h
  | succ fuel ih =>
    intro s h
    rw [mcpCrawl]
    split
    next => exact h
    next x url depth rest heq =>
      by_cases hp : cfg.maxPages ≤ s.visited.length
      · rw [if_pos hp]
        exact h
      rw [if_neg hp]
      by_cases hdv : cfg.maxDepth < depth ∨ url ∈ s.visited
      · rw [if_pos hdv]
        exact ih _ ⟨h.1, h.2⟩
      rw [if_neg hdv]
      rw [if_neg (by simp [mcpRobotsAllowed_true])]
      cases hres : (processUrl cfg web url).result with
      | error e =>
        simp only [hres]
        exact ih _ ⟨h.1, h.2⟩
      | ok o =>
        cases o with
        | none =>
          simp only [hres]
          exact ih _ ⟨h.1, h.2⟩
        | some links =>
          simp only [hres]
          apply ih
          constructor
          · simp only [List.length_append, List.length_singleton]
            omega
          · intro r hr
            rcases List.mem_append.mp hr with hr | hr
            · exact h.2 r hr
            · rw [List.mem_singleton] at hr
              subst hr
              omega

/-- C2 — For every crawl run, the size of the visited-URL set never
exceeds `max_pages`, and every yielded page result has depth at most
`max_depth` (for the `webcrawler` `Crawler` the visited bound needs the
spec's `max_pages ≥ 1` config invariant, since the start page is marked
visited unconditionally; the PlaywrightCrawler loop guard needs no
hypothesis). -/
theorem claim_C2_budget_and_depth :
    (∀ (cfg : WcConfig) (web : Url → Option (List Url)) (rsrc : Url → Option Url)
      (fuel : Nat), 1 ≤ cfg.maxPages →
        (wcCrawl cfg web rsrc fuel).visited.length ≤ cfg.maxPages ∧
        ∀ y ∈ (wcCrawl cfg web rsrc fuel).yields, y.2 ≤ cfg.maxDepth) ∧
    (∀ (cfg : McpConfig) (web : Url → Nat → AttemptRes) (fuel : Nat),
        (mcpCrawlRun cfg web fuel).visited.length ≤ cfg.maxPages ∧
        ∀ r ∈ (mcpCrawlRun cfg web fuel).results, r.2 ≤ cfg.maxDepth) := by
  constructor
  · intro cfg web rsrc fuel h1
    exact wcCrawlPage_bounds cfg web rsrc fuel cfg.startUrl 0 wcInitState
      ⟨by simp [wcInitState], by simp [wcInitState]⟩ (by simpa [wcInitState] using h1)
  · intro cfg web fuel
    exact mcpCrawl_bounds cfg web fuel (mcpInit cfg)
      ⟨by simp [mcpInit], by simp [mcpInit]⟩

/-- Witness for C2 at the concrete `c3Cfg`/`c3Web` site. -/
theorem claim_C2_budget_and_depth_witness :
    1 ≤ c3Cfg.maxPages ∧
    ((wcCrawl c3Cfg c3Web (fun _ => none) 10).visited.length ≤ c3Cfg.maxPages ∧
      ∀ y ∈ (wcCrawl c3Cfg c3Web (fun _ => none) 10).yields, y.2 ≤ c3Cfg.maxDepth) :=
  ⟨by decide, claim_C2_budget_and_depth.1 c3Cfg c3Web (fun _ => none) 10 (by decide)⟩

/-- The BFS-order invariant of `PlaywrightCrawler.crawl`: depths are
non-decreasing along results-then-queue, and any two queued entries are
within one depth level of each other. -/
def mcpOrderInv (s : McpState) : Prop :=
  List.Pairwise (fun a b : Url × Nat => a.2 ≤ b.2) (s.results ++ s.queue) ∧
  ∀ x ∈ s.queue, ∀ y ∈ s.queue, x.2 ≤ y.2 + 1

theorem orderInv_step (results rest : List (Url × Nat)) (url : Url) (d : Nat)
    (news : List (Url × Nat)) (hnews : ∀ n ∈ news, n.2 = d + 1)
    (hA : List.Pairwise (fun a b : Url × Nat => a.2 ≤ b.2)
      (results ++ (url, d) :: rest))
    (hB : ∀ x ∈ (url, d) :: rest, ∀ y ∈ (url, d) :: rest, x.2 ≤ y.2 + 1) :
    List.Pairwise (fun a b : Url × Nat => a.2 ≤ b.2)
      ((results ++ [(url, d)]) ++ (rest ++ news)) ∧
    ∀ x ∈ rest ++ news, ∀ y ∈ rest ++ news, x.2 ≤ y.2 + 1 := by
  rw [List.pairwise_append] at hA
  obtain ⟨hPr, hPc, hRC⟩ := hA
  rw [List.pairwise_cons] at hPc
  obtain ⟨hdLe, hPrest⟩ := hPc
  have hrest_le : ∀ x ∈ rest, x.2 ≤ d + 1 := by
    intro x hx
    exact hB x (List.mem_cons_of_mem _ hx) (url, d) (List.mem_cons_self _ _)
  constructor
  · rw [List.pairwise_append]
    refine ⟨?_, ?_, ?_⟩
    · rw [List.pairwise_append]
      refine ⟨hPr, List.pairwise_singleton _ _, ?_⟩
      intro a ha b hb
      rw [List.mem_singleton] at hb
      subst hb
      exact hRC a ha (url, d) (List.mem_cons_self _ _)
    · rw [List.pairwise_append]
      refine ⟨hPrest, ?_, ?_⟩
      · exact List.pairwise_of_forall_mem_list
          (fun a ha b hb => by rw [hnews a ha, hnews b hb])
      · intro a ha b hb
        rw [hnews b hb]
        exact hrest_le a ha
    · intro a ha b hb
      rcases List.mem_append.mp ha with ha | ha
      · rcases List.mem_append.mp hb with hb | hb
        · exact hRC a ha b (List.mem_cons_of_mem _ hb)
        · rw [hnews b hb]
          exact Nat.le_trans (hRC a ha (url, d) (List.mem_cons_self _ _))
            (Nat.le_succ d)
      · rw [List.mem_singleton] at ha
        subst ha
        rcases List.mem_append.mp hb with hb | hb
        · exact hdLe b hb
        · rw [hnews b hb]
          exact Nat.le_succ d
  · intro x hx y hy
    rcases List.mem_append.mp hx with hx | hx
    · rcases List.mem_append.mp hy with hy | hy
      · exact hB x (List.mem_cons_of_mem _ hx) y (List.mem_cons_of_mem _ hy)
      · rw [hnews y hy]
        exact Nat.le_trans (hrest_le x hx) (Nat.le_succ _)
    · rw [hnews x hx]
      rcases List.mem_append.mp hy with hy | hy
      · exact Nat.succ_le_succ (hdLe y hy)
      · rw [hnews y hy]
        exact Nat.le_succ _

theorem orderInv_skip (results rest : List (Url × Nat)) (e : Url × Nat)
    (hA : List.Pairwise (fun a b : Url × Nat => a.2 ≤ b.2) (results ++ e :: rest))
    (hB : ∀ x ∈ e :: rest, ∀ y ∈ e :: rest, x.2 ≤ y.2 + 1) :
    List.Pairwise (fun a b : Url × Nat => a.2 ≤ b.2) (results ++ rest) ∧
    ∀ x ∈ rest, ∀ y ∈ rest, x.2 ≤ y.2 + 1 := by
  constructor
  · exact List.Pairwise.sublist
      (List.Sublist.append_left (List.sublist_cons_self e rest) results) hA
  · intro x hx y hy
    exact hB x (List.mem_cons_of_mem _ hx) y (List.mem_cons_of_mem _ hy)

theorem mcpCrawl_order (cfg : McpConfig) (web : Url → Nat → AttemptRes) :
    ∀ fuel s, mcpOrderInv s → mcpOrderInv (mcpCrawl cfg web fuel s) := by
  intro fuel
  induction fuel with
  | zero =>
    intro s h
    simpa [mcpCrawl] using h
  | succ fuel ih =>
    intro s h
    rw [mcpCrawl]
    split
    next => exact h
    next x url depth rest heq =>
      by_cases hp : cfg.maxPages ≤ s.visited.length
      · rw [if_pos hp]
        exact h
      rw [if_neg hp]
      have hA := h.1
      have hB := h.2
      rw [heq] at hA hB
      by_cases hdv : cfg.maxDepth < depth ∨ url ∈ s.visited
      · rw [if_pos hdv]
        exact ih _ (orderInv_skip s.results rest (url, depth) hA hB)
      rw [if_neg hdv]
      rw [if_neg (by simp [mcpRobotsAllowed_true])]
      cases hres : (processUrl cfg web url).result with
      | error e =>
        simp only [hres]
        exact ih _ (orderInv_skip s.results rest (url, depth) hA hB)
      | ok o =>
        cases o with
        | none =>
          simp only [hres]
          exact ih _ (orderInv_skip s.results rest (url, depth) hA hB)
        | some links =>
          simp only [hres]
          apply ih
          by_cases hlt : depth < cfg.maxDepth
          · rw [if_pos hlt]
            have hnews : ∀ n ∈ (mcpFilterUrls cfg (s.visited ++ [url]) links).map
                (fun u => (u, depth + 1)), n.2 = depth + 1 := by
              intro n hn
              rcases List.mem_map.mp hn with ⟨u, _, rfl⟩
              rfl
            exact orderInv_step s.results rest url depth _ hnews hA hB
          · rw [if_neg hlt]
            have hstep := orderInv_step s.results rest url depth []
              (by simp) hA hB
            constructor
            · simpa using hstep.1
            · intro a ha b hb
              exact hstep.2 a (by simpa using ha) b (by simpa using hb)

/-- C3 counterexample — As stated, the claim is false for the
`webcrawler` `Crawler`: its generator recurses into each link before
yielding the next sibling (depth-first), so with `s → a, b` and
`a → c`, page `c` (depth 2) is yielded before page `b` (depth 1);
the yield order is not breadth-first. -/
theorem claim_C3_counterexample :
    ¬ List.Pairwise (fun a b : Url × Nat => a.2 ≤ b.2)
      (wcCrawl c3Cfg c3Web (fun _ => none) 10).yields := by decide

/-- The discovery-order invariant of `PlaywrightCrawler.crawl`: the
pending results-then-queue sequence is a sublist of the discovery log
(entries are only ever consumed from the front of the FIFO queue and
appended verbatim to results, and new entries are appended to the queue
and the log together). -/
theorem mcpCrawl_discovery (cfg : McpConfig) (web : Url → Nat → AttemptRes) :
    ∀ fuel s, List.Sublist (s.results ++ s.queue) s.discoveryLog →
      List.Sublist ((mcpCrawl cfg web fuel s).results ++ (mcpCrawl cfg web fuel s).queue)
        (mcpCrawl cfg web fuel s).discoveryLog := by
  intro fuel
  induction fuel with
  | zero =>
    intro s h
    simpa [mcpCrawl] using h
  | succ fuel ih =>
    intro s h
    rw [mcpCrawl]
    split
    next => exact h
    next x url depth rest heq =>
      rw [heq] at h
      have hskip : List.Sublist (s.results ++ rest) s.discoveryLog :=
        List.Sublist.trans
          (List.Sublist.append_left (List.sublist_cons_self (url, depth) rest) s.results) h
      by_cases hp : cfg.maxPages ≤ s.visited.length
      · rw [if_pos hp]
        rw [heq]
        exact h
      rw [if_neg hp]
      by_cases hdv : cfg.maxDepth < depth ∨ url ∈ s.visited
      · rw [if_pos hdv]
        exact ih _ hskip
      rw [if_neg hdv]
      rw [if_neg (by simp [mcpRobotsAllowed_true])]
      cases hres : (processUrl cfg web url).result with
      | error e =>
        simp only [hres]
        exact ih _ hskip
      | ok o =>
        cases o with
        | none =>
          simp only [hres]
          exact ih _ hskip
        | some links =>
          simp only [hres]
          apply ih
          by_cases hlt : depth < cfg.maxDepth
          · rw [if_pos hlt, if_pos hlt]
            have hsh : (s.results ++ [(url, depth)]) ++
                (rest ++ (mcpFilterUrls cfg (s.visited ++ [url]) links).map
                  (fun u => (u, depth + 1))) =
                (s.results ++ (url, depth) :: rest) ++
                  (mcpFilterUrls cfg (s.visited ++ [url]) links).map
                    (fun u => (u, depth + 1)) := by
              simp [List.append_assoc]
            rw [hsh]
            exact List.Sublist.append h (List.Sublist.refl _)
          · rw [if_neg hlt, if_neg hlt]
            have hsh : (s.results ++ [(url, depth)]) ++ rest =
                s.results ++ (url, depth) :: rest := by
              simp [List.append_assoc]
            rw [hsh]
            exact h

/-- C3 amended — Only the `PlaywrightCrawler` traverses the frontier
in FIFO (breadth-first) order: its results carry non-decreasing depths,
so every page at depth `d` is yielded before any page at depth `d + 1`;
and the result sequence is a sublist of the discovery sequence (the
order in which entries were placed on the FIFO queue), in particular
the results of each fixed depth appear in discovery order (stable
tie-break).  The `webcrawler` `Crawler` yields depth-first instead. -/
theorem claim_C3_amended_bfs_order (cfg : McpConfig) (web : Url → Nat → AttemptRes)
    (fuel : Nat) :
    List.Pairwise (fun a b : Url × Nat => a.2 ≤ b.2)
      (mcpCrawlRun cfg web fuel).results ∧
    List.Sublist (mcpCrawlRun cfg web fuel).results
      (mcpCrawlRun cfg web fuel).discoveryLog ∧
    ∀ d, List.Sublist
      ((mcpCrawlRun cfg web fuel).results.filter (fun r => r.2 == d))
      ((mcpCrawlRun cfg web fuel).discoveryLog.filter (fun r => r.2 == d)) := by
  have h := mcpCrawl_order cfg web fuel (mcpInit cfg)
    ⟨by simp [mcpInit], by simp [mcpInit]⟩
  have hd := mcpCrawl_discovery cfg web fuel (mcpInit cfg)
    (by simp [mcpInit])
  have hres : List.Sublist (mcpCrawlRun cfg web fuel).results
      (mcpCrawlRun cfg web fuel).discoveryLog :=
    List.Sublist.trans (List.sublist_append_left _ _) hd
  refine ⟨?_, hres, ?_⟩
  · exact List.Pairwise.sublist (List.sublist_append_left _ _) h.1
  · intro d
    exact List.Sublist.filter _ hres

-- Fail-open facts about the robots fetch.

theorem emptyRobots_isAllowed (u : Url) : emptyRobots.isAllowed u = true := by
  simp [RobotsConfig.isAllowed, emptyRobots]

theorem lookup_mem_of_some {cache : List (Url × RobotsConfig)} {d : Url}
    {rc : RobotsConfig} (h : cache.lookup d = some rc) : (d, rc) ∈ cache := by
  induction cache with
  | nil => simp [List.lookup] at h
  | cons e es ih =>
    obtain ⟨k, v⟩ := e
    rw [List.lookup_cons] at h
    cases hk : d == k with
    | true =>
      rw [hk] at h
      cases h
      rw [show d = k from by simpa using hk]
      exact List.mem_cons_self _ _
    | false =>
      rw [hk] at h
      exact List.mem_cons_of_mem _ (ih h)

theorem fetchRobotsTxt_failopen (ua domain : Url)
    (cache : List (Url × RobotsConfig))
    (hC : ∀ e ∈ cache, e.2 = emptyRobots) :
    (fetchRobotsTxt ua (fun _ => none) domain cache).1 = emptyRobots ∧
    ∀ e ∈ (fetchRobotsTxt ua (fun _ => none) domain cache).2, e.2 = emptyRobots := by
  unfold fetchRobotsTxt
  cases hl : cache.lookup domain with
  | some rc =>
    simp only [hl]
    exact ⟨hC _ (lookup_mem_of_some hl), hC⟩
  | none =>
    simp only [hl]
    constructor
    · trivial
    · intro e he
      rcases List.mem_append.mp he with he | he
      · exact hC e he
      · rw [List.mem_singleton] at he
        subst he
        rfl

/-- The observable part of a crawl state (everything except the robots
cache), related across the two runs compared by C5: a robots-respecting
run whose robots.txt fetches all fail, and a run with robots checking
disabled.  The first run's cache may only hold fail-open entries. -/
def wcObsRel (s1 s2 : WcState) : Prop :=
  s1.visited = s2.visited ∧ s1.yields = s2.yields ∧ s1.fetchLog = s2.fetchLog ∧
  ∀ e ∈ s1.robotsCache, e.2 = emptyRobots

theorem wcPageBody_failopen (cfg : WcConfig) (web : Url → Option (List Url))
    (rsrc2 : Url → Option Url) (rec1 rec2 : Url → Nat → WcState → WcState)
    (hRec : ∀ l d s1 s2, wcObsRel s1 s2 → wcObsRel (rec1 l d s1) (rec2 l d s2)) :
    ∀ url depth s1 s2, wcObsRel s1 s2 →
      wcObsRel
        (wcPageBody { cfg with respectRobots := true } web (fun _ => none) rec1
          url depth s1)
        (wcPageBody { cfg with respectRobots := false } web rsrc2 rec2
          url depth s2) := by
  intro url depth s1 s2 hrel
  obtain ⟨hV, hY, hF, hC⟩ := hrel
  have hfr := fetchRobotsTxt_failopen cfg.userAgent (urlsplitChars url).netloc
    s1.robotsCache hC
  by_cases hd : cfg.maxDepth < depth
  · rw [show wcPageBody { cfg with respectRobots := true } web (fun _ => none) rec1
        url depth s1 = s1 from by simp [wcPageBody, hd]]
    rw [show wcPageBody { cfg with respectRobots := false } web rsrc2 rec2
        url depth s2 = s2 from by simp [wcPageBody, hd]]
    exact ⟨hV, hY, hF, hC⟩
  by_cases hv : url ∈ s2.visited
  · have hv1 : url ∈ s1.visited := by rw [hV]; exact hv
    rw [show wcPageBody { cfg with respectRobots := true } web (fun _ => none) rec1
        url depth s1 = s1 from by simp [wcPageBody, hd, hv1]]
    rw [show wcPageBody { cfg with respectRobots := false } web rsrc2 rec2
        url depth s2 = s2 from by simp [wcPageBody, hd, hv]]
    exact ⟨hV, hY, hF, hC⟩
  have hv1 : url ∉ s1.visited := by rw [hV]; exact hv
  cases hw : web url with
  | none =>
    rw [show wcPageBody { cfg with respectRobots := true } web (fun _ => none) rec1
        url depth s1 =
        ⟨s1.visited ++ [url],
          (fetchRobotsTxt cfg.userAgent (fun _ => none) (urlsplitChars url).netloc
            s1.robotsCache).2, s1.yields, s1.fetchLog ++ [url]⟩ from by
      simp [wcPageBody, hd, hv1, hw, hfr.1, emptyRobots_isAllowed]]
    rw [show wcPageBody { cfg with respectRobots := false } web rsrc2 rec2
        url depth s2 =
        ⟨s2.visited ++ [url], s2.robotsCache, s2.yields, s2.fetchLog ++ [url]⟩ from by
      simp [wcPageBody, hd, hv, hw]]
    exact ⟨by rw [hV], hY, by rw [hF], hfr.2⟩
  | some hrefs =>
    have hlinks :
        hrefs.filterMap (fun h => normalizeUrl { cfg with respectRobots := true } h url) =
        hrefs.filterMap (fun h => normalizeUrl { cfg with respectRobots := false } h url) :=
      rfl
    rw [show wcPageBody { cfg with respectRobots := true } web (fun _ => none) rec1
        url depth s1 =
        wcLinksLoop cfg.maxPages (fun l s' => rec1 l (depth + 1) s')
          (hrefs.filterMap (fun h => normalizeUrl { cfg with respectRobots := true } h url))
          ⟨s1.visited ++ [url],
            (fetchRobotsTxt cfg.userAgent (fun _ => none) (urlsplitChars url).netloc
              s1.robotsCache).2,
            s1.yields ++ [(url, depth)], s1.fetchLog ++ [url]⟩ from by
      simp [wcPageBody, hd, hv1, hw, hfr.1, emptyRobots_isAllowed]]
    rw [show wcPageBody { cfg with respectRobots := false } web rsrc2 rec2
        url depth s2 =
        wcLinksLoop cfg.maxPages (fun l s' => rec2 l (depth + 1) s')
          (hrefs.filterMap (fun h => normalizeUrl { cfg with respectRobots := false } h url))
          ⟨s2.visited ++ [url], s2.robotsCache, s2.yields ++ [(url, depth)],
            s2.fetchLog ++ [url]⟩ from by
      simp [wcPageBody, hd, hv, hw]]
    rw [hlinks]
    apply wcLinksLoop_rel cfg.maxPages _ _ wcObsRel (fun a b hab => hab.1)
      (fun l a b hab => hRec l (depth + 1) a b hab)
    exact ⟨by rw [hV], by rw [hY], by rw [hF], hfr.2⟩

theorem wcCrawlPage_failopen (cfg : WcConfig) (web : Url → Option (List Url))
    (rsrc2 : Url → Option Url) :
    ∀ fuel url depth s1 s2, wcObsRel s1 s2 →
      wcObsRel
        (wcCrawlPage { cfg with respectRobots := true } web (fun _ => none) fuel
          url depth s1)
        (wcCrawlPage { cfg with respectRobots := false } web rsrc2 fuel
          url depth s2) := by
  intro fuel
  induction fuel with
  | zero =>
    intro url depth s1 s2 h
    simpa [wcCrawlPage] using h
  | succ fuel ih =>
    intro url depth s1 s2 h
    simp only [wcCrawlPage]
    exact wcPageBody_failopen cfg web rsrc2 _ _ (fun l d a b hab => ih l d a b hab)
      url depth s1 s2 h

/-- C5 — If fetching robots.txt for a domain fails (connection
refused, or a non-200 status: both give the oracle value `none`), then
that domain's policy is the empty rule set: every path is allowed
(fail-open) and no crawl-delay override is recorded.  Moreover a
robots-respecting crawl run all of whose robots.txt fetches fail
produces exactly the visited set, yields and fetches of the same run
with robots checking disabled — the run continues rather than
aborting. -/
theorem claim_C5_robots_failopen :
    (∀ (ua domain : Url) (rsrc : Url → Option Url)
      (cache : List (Url × RobotsConfig)),
      rsrc domain = none → cache.lookup domain = none →
      (fetchRobotsTxt ua rsrc domain cache).1 = emptyRobots ∧
      (∀ u, (fetchRobotsTxt ua rsrc domain cache).1.isAllowed u = true) ∧
      (fetchRobotsTxt ua rsrc domain cache).1.crawlDelay = none) ∧
    (∀ (cfg : WcConfig) (web : Url → Option (List Url))
      (rsrc2 : Url → Option Url) (fuel : Nat),
      wcObsRel (wcCrawl { cfg with respectRobots := true } web (fun _ => none) fuel)
        (wcCrawl { cfg with respectRobots := false } web rsrc2 fuel)) := by
  constructor
  · intro ua domain rsrc cache hsrc hmiss
    have : fetchRobotsTxt ua rsrc domain cache = (emptyRobots, cache ++ [(domain, emptyRobots)]) := by
      unfold fetchRobotsTxt
      rw [hmiss, hsrc]
    rw [this]
    exact ⟨rfl, fun u => emptyRobots_isAllowed u, rfl⟩
  · intro cfg web rsrc2 fuel
    exact wcCrawlPage_failopen cfg web rsrc2 fuel cfg.startUrl 0 wcInitState wcInitState
      ⟨rfl, rfl, rfl, by simp [wcInitState]⟩

/-- Witness for C5: a failing robots fetch for domain `h` yields the
all-allowing policy with no crawl delay. -/
theorem claim_C5_robots_failopen_witness :
    (fetchRobotsTxt "bot".data (fun _ => none) "h".data []).1 = emptyRobots ∧
    (fetchRobotsTxt "bot".data (fun _ => none) "h".data []).1.isAllowed
      "http://h/anything".data = true ∧
    (fetchRobotsTxt "bot".data (fun _ => none) "h".data []).1.crawlDelay = none :=
  let h := claim_C5_robots_failopen.1 "bot".data "h".data (fun _ => none) [] rfl rfl
  ⟨h.1, h.2.1 "http://h/anything".data, h.2.2⟩

-- Retry-loop characterization under persistent failure.

theorem processLoop_exn (cfg : McpConfig) (web : Url → Nat → AttemptRes) (url : Url)
    (hx : ∀ i, web url i = AttemptRes.exn) :
    ∀ r i, 1 ≤ r →
      processLoop cfg web url r i =
        ⟨Except.error (), r,
          (List.range (r - 1)).map (fun k => cfg.retryDelay * ((i + 1 + k : Nat) : ℚ))⟩ := by
  intro r
  induction r with
  | zero =>
    intro i h
    omega
  | succ r ih =>
    intro i _
    cases r with
    | zero => simp [processLoop, hx i]
    | succ r' =>
      rw [processLoop, hx i]
      simp only []
      rw [if_neg (by omega : ¬ (r' + 1 = 0))]
      rw [ih (i + 1) (by omega)]
      refine congrArg (ProcOut.mk (Except.error ()) (r' + 1 + 1)) ?_
      rw [show r' + 1 + 1 - 1 = r' + 1 from rfl, List.range_succ_eq_map]
      rw [List.map_cons, List.map_map]
      congr 1
      · push_cast
        ring
      · apply List.map_congr_left
        intro k _
        simp only [Function.comp]
        push_cast
        ring

theorem processUrl_exn (cfg : McpConfig) (web : Url → Nat → AttemptRes) (url : Url)
    (hx : ∀ i, web url i = AttemptRes.exn) (h1 : 1 ≤ cfg.retryAttempts) :
    processUrl cfg web url =
      ⟨Except.error (), cfg.retryAttempts,
        (List.range (cfg.retryAttempts - 1)).map
          (fun k => cfg.retryDelay * ((1 + k : Nat) : ℚ))⟩ := by
  rw [processUrl, processLoop_exn cfg web url hx cfg.retryAttempts 0 h1]

theorem processLoop_exn_not_ok (cfg : McpConfig) (web : Url → Nat → AttemptRes)
    (url : Url) (hx : ∀ i, web url i = AttemptRes.exn) :
    ∀ r i l, (processLoop cfg web url r i).result ≠ Except.ok (some l) := by
  intro r
  induction r with
  | zero =>
    intro i l h
    simp [processLoop] at h
  | succ r ih =>
    intro i l
    rw [processLoop, hx i]
    simp only []
    by_cases hr : r = 0
    · rw [if_pos hr]
      intro h
      simp at h
    · rw [if_neg hr]
      exact ih (i + 1) l

theorem mcpCrawl_drops_failing (cfg : McpConfig) (web : Url → Nat → AttemptRes)
    (url : Url) (hx : ∀ i, web url i = AttemptRes.exn) :
    ∀ fuel s, url ∉ s.results.map Prod.fst →
      url ∉ (mcpCrawl cfg web fuel s).results.map Prod.fst := by
  intro fuel
  induction fuel with
  | zero =>
    intro s h
    simpa [mcpCrawl] using h
  | succ fuel ih =>
    intro s h
    rw [mcpCrawl]
    split
    next => exact h
    next x u depth rest heq =>
      by_cases hp : cfg.maxPages ≤ s.visited.length
      · rw [if_pos hp]
        exact h
      rw [if_neg hp]
      by_cases hdv : cfg.maxDepth < depth ∨ u ∈ s.visited
      · rw [if_pos hdv]
        exact ih _ h
      rw [if_neg hdv]
      rw [if_neg (by simp [mcpRobotsAllowed_true])]
      cases hres : (processUrl cfg web u).result with
      | error e =>
        simp only [hres]
        exact ih _ h
      | ok o =>
        cases o with
        | none =>
          simp only [hres]
          exact ih _ h
        | some links =>
          simp only [hres]
          apply ih
          simp only [List.map_append, List.map_cons, List.map_nil]
          intro hmem
          rcases List.mem_append.mp hmem with hmem | hmem
          · exact h hmem
          · rw [List.mem_singleton] at hmem
            subst hmem
            exact processLoop_exn_not_ok cfg web url hx cfg.retryAttempts 0 links hres

theorem mcpCrawl_step_failure (cfg : McpConfig) (web : Url → Nat → AttemptRes)
    (url : Url) (hx : ∀ i, web url i = AttemptRes.exn) (h1 : 1 ≤ cfg.retryAttempts) :
    ∀ fuel s depth rest, s.queue = (url, depth) :: rest →
      ¬ cfg.maxPages ≤ s.visited.length →
      ¬ (cfg.maxDepth < depth ∨ url ∈ s.visited) →
      mcpCrawl cfg web (fuel + 1) s =
        mcpCrawl cfg web fuel
          { s with queue := rest,
                   fetchLog := s.fetchLog ++ List.replicate cfg.retryAttempts url } := by
  intro fuel s depth rest hq hp hdv
  obtain ⟨q, v, r, f⟩ := s
  simp only at hq
  subst hq
  rw [mcpCrawl]
  simp only []
  rw [if_neg hp, if_neg hdv, if_neg (by simp [mcpRobotsAllowed_true])]
  rw [processUrl_exn cfg web url hx h1]

/-- The configuration of the C6 witness run (three attempts, unit
delay). -/
def c6Cfg : McpConfig := ⟨"http://h/s".data, 3, 10, 3, 1, true⟩

/-- C6 — For every URL whose fetch raises on every attempt, the
coordinator makes exactly `retry_attempts` attempts, sleeping
`retry_delay * attempt_number` (attempt numbers 1, …,
`retry_attempts - 1`) between attempts — linearly increasing backoff —
and then lets the exception propagate (`Except.error`); the crawl loop
catches it and continues with the remaining frontier, with the URL
dropped: it is logged `retry_attempts` times, never enqueued by this
step, and never appears among the results. -/
theorem claim_C6_retry_backoff (cfg : McpConfig) (web : Url → Nat → AttemptRes)
    (url : Url) (hx : ∀ i, web url i = AttemptRes.exn)
    (h1 : 1 ≤ cfg.retryAttempts) :
    processUrl cfg web url =
      ⟨Except.error (), cfg.retryAttempts,
        (List.range (cfg.retryAttempts - 1)).map
          (fun k => cfg.retryDelay * ((1 + k : Nat) : ℚ))⟩ ∧
    (∀ fuel s depth rest, s.queue = (url, depth) :: rest →
      ¬ cfg.maxPages ≤ s.visited.length →
      ¬ (cfg.maxDepth < depth ∨ url ∈ s.visited) →
      mcpCrawl cfg web (fuel + 1) s =
        mcpCrawl cfg web fuel
          { s with queue := rest,
                   fetchLog := s.fetchLog ++ List.replicate cfg.retryAttempts url }) ∧
    (∀ fuel s, url ∉ s.results.map Prod.fst →
      url ∉ (mcpCrawl cfg web fuel s).results.map Prod.fst) :=
  ⟨processUrl_exn cfg web url hx h1,
    mcpCrawl_step_failure cfg web url hx h1,
    mcpCrawl_drops_failing cfg web url hx⟩

/-- Witness for C6: with three attempts and unit delay against an
always-raising URL, `_process_url` makes 3 attempts and sleeps between
them. -/
theorem claim_C6_retry_backoff_witness :
    processUrl c6Cfg (fun _ _ => AttemptRes.exn) "http://h/u".data =
      ⟨Except.error (), c6Cfg.retryAttempts,
        (List.range (c6Cfg.retryAttempts - 1)).map
          (fun k => c6Cfg.retryDelay * ((1 + k : Nat) : ℚ))⟩ :=
  (claim_C6_retry_backoff c6Cfg (fun _ _ => AttemptRes.exn) "http://h/u".data
    (fun _ => rfl) (by decide)).1

-- Facts about the splitters, towards the normalization round-trip.

theorem splitAtFirst_not_mem {sep : Char} : ∀ {l : Url}, sep ∉ l →
    splitAtFirst sep l = (l, none) := by
  intro l
  induction l with
  | nil => intro _; rfl
  | cons c cs ih =>
    intro h
    rw [splitAtFirst]
    rw [if_neg (by intro hc; subst hc; exact h (List.mem_cons_self _ _))]
    rw [ih (fun hm => h (List.mem_cons_of_mem c hm))]

theorem splitAtFirst_append {sep : Char} : ∀ {a : Url} (b : Url), sep ∉ a →
    splitAtFirst sep (a ++ sep :: b) = (a, some b) := by
  intro a
  induction a with
  | nil =>
    intro b _
    simp [splitAtFirst]
  | cons c cs ih =>
    intro b h
    rw [List.cons_append, splitAtFirst]
    rw [if_neg (by intro hc; subst hc; exact h (List.mem_cons_self _ _))]
    rw [ih b (fun hm => h (List.mem_cons_of_mem c hm))]

theorem splitAtFirst_fst_not_mem (sep : Char) : ∀ (l : Url),
    sep ∉ (splitAtFirst sep l).1 := by
  intro l
  induction l with
  | nil => simp [splitAtFirst]
  | cons c cs ih =>
    rw [splitAtFirst]
    by_cases hc : c = sep
    · rw [if_pos hc]
      simp
    · rw [if_neg hc]
      intro hm
      rcases List.mem_cons.mp hm with hm | hm
      · exact hc hm.symm
      · exact ih hm

theorem splitAtFirst_fst_subset (sep : Char) : ∀ (l : Url),
    ∀ c ∈ (splitAtFirst sep l).1, c ∈ l := by
  intro l
  induction l with
  | nil => simp [splitAtFirst]
  | cons c cs ih =>
    rw [splitAtFirst]
    by_cases hc : c = sep
    · rw [if_pos hc]
      simp
    · rw [if_neg hc]
      intro x hx
      rcases List.mem_cons.mp hx with hx | hx
      · rw [hx]
        exact List.mem_cons_self _ _
      · exact List.mem_cons_of_mem _ (ih x hx)

theorem splitAtFirst_fst_head (sep : Char) (l : Url) :
    (splitAtFirst sep l).1 = [] ∨
    (∃ c rest, l.head? = some c ∧ c ≠ sep ∧ (splitAtFirst sep l).1 = c :: rest) := by
  cases l with
  | nil => left; rfl
  | cons c cs =>
    rw [splitAtFirst]
    by_cases hc : c = sep
    · rw [if_pos hc]
      left
      rfl
    · rw [if_neg hc]
      right
      exact ⟨c, (splitAtFirst sep cs).1, rfl, hc, rfl⟩

-- Character-class facts used by the reparse argument.

theorem lowerChar_schemeChar {c : Char} (h : schemeChar c = true) :
    schemeChar (lowerChar c) = true := by
  by_cases hu : 65 ≤ c.toNat ∧ c.toNat ≤ 90
  · have : (lowerChar c).toNat = c.toNat + 32 := by rw [lowerChar_toNat, if_pos hu]
    simp only [schemeChar, asciiAlpha, Bool.or_eq_true, Bool.and_eq_true,
      decide_eq_true_eq, this]
    left
    left
    omega
  · rw [lowerChar_eq_self_of_not_upper c hu]
    exact h

theorem lowerChar_asciiAlpha {c : Char} (h : asciiAlpha c = true) :
    asciiAlpha (lowerChar c) = true := by
  by_cases hu : 65 ≤ c.toNat ∧ c.toNat ≤ 90
  · have : (lowerChar c).toNat = c.toNat + 32 := by rw [lowerChar_toNat, if_pos hu]
    simp only [asciiAlpha, Bool.or_eq_true, Bool.and_eq_true, decide_eq_true_eq, this]
    left
    omega
  · rw [lowerChar_eq_self_of_not_upper c hu]
    exact h

theorem validScheme_lower {s : Url} (h : validScheme s = true) :
    validScheme (lowerChars s) = true := by
  cases s with
  | nil => simp [validScheme] at h
  | cons c cs =>
    rw [validScheme] at h
    rw [show lowerChars (c :: cs) = lowerChar c :: lowerChars cs from rfl]
    rw [validScheme]
    rw [Bool.and_eq_true] at h ⊢
    refine ⟨lowerChar_asciiAlpha h.1, ?_⟩
    rw [show lowerChar c :: lowerChars cs = lowerChars (c :: cs) from rfl]
    rw [List.all_eq_true] at h ⊢
    intro x hx
    rcases List.mem_map.mp hx with ⟨y, hy, rfl⟩
    exact lowerChar_schemeChar (h.2 y hy)

theorem validScheme_no_colon {s : Url} (h : validScheme s = true) : ':' ∉ s := by
  cases s with
  | nil => simp
  | cons c cs =>
    rw [validScheme, Bool.and_eq_true, List.all_eq_true] at h
    intro hm
    have := h.2 ':' hm
    simp [schemeChar, asciiAlpha] at this

-- Reparsing a normalized URL.

theorem splitScheme_mk (s rest : Url) (hs : validScheme s = true)
    (hlow : lowerChars s = s) :
    splitScheme (s ++ ':' :: rest) = (s, rest) := by
  rw [splitScheme]
  rw [splitAtFirst_append rest (validScheme_no_colon hs)]
  simp only [hs, if_true, hlow]

theorem splitNetloc_mk (nl pa : Url) (hnl : ∀ c ∈ nl, notDelimChar c = true)
    (hpa : pa = [] ∨ pa.head? = some '/') :
    splitNetloc ('/' :: '/' :: (nl ++ pa)) = (nl, pa) := by
  rw [splitNetloc]
  rw [if_pos (by simp)]
  rw [show ('/' :: '/' :: (nl ++ pa)).drop 2 = nl ++ pa from rfl]
  rw [List.takeWhile_append_of_pos hnl, List.dropWhile_append_of_pos hnl]
  rcases hpa with hpa | hpa
  · subst hpa
    simp
  · cases pa with
    | nil => simp at hpa
    | cons c cs =>
      have hc : c = '/' := by simpa using hpa
      subst hc
      simp [List.takeWhile_cons, List.dropWhile_cons, notDelimChar]

theorem splitSharp_none (u : Url) (h : '#' ∉ u) : splitSharp u = (u, []) := by
  rw [splitSharp, splitAtFirst_not_mem h]

theorem splitQuery_none (u : Url) (h : '?' ∉ u) : splitQuery u = (u, []) := by
  rw [splitQuery, splitAtFirst_not_mem h]

theorem urlsplit_reassembled (s nl pa : Url)
    (hs : validScheme s = true) (hlow : lowerChars s = s)
    (hnl : ∀ c ∈ nl, notDelimChar c = true)
    (hpa1 : pa = [] ∨ pa.head? = some '/') (hpaq : '?' ∉ pa) (hpaf : '#' ∉ pa) :
    urlsplitChars (s ++ ':' :: '/' :: '/' :: (nl ++ pa)) = ⟨s, nl, pa, [], []⟩ := by
  rw [urlsplitChars]
  rw [splitScheme_mk s ('/' :: '/' :: (nl ++ pa)) hs hlow]
  rw [show (s, '/' :: '/' :: (nl ++ pa)).2 = '/' :: '/' :: (nl ++ pa) from rfl]
  rw [splitNetloc_mk nl pa hnl hpa1]
  rw [show (nl, pa).2 = pa from rfl]
  rw [splitSharp_none pa hpaf]
  rw [show (pa, ([] : Url)).1 = pa from rfl]
  rw [splitQuery_none pa hpaq]

theorem urlunsplit_mk (s nl pa : Url) (hsne : s ≠ []) (hnlne : nl ≠ [])
    (hpa : pa = [] ∨ pa.head? = some '/') :
    urlunsplitChars ⟨s, nl, pa, [], []⟩ = s ++ ':' :: '/' :: '/' :: (nl ++ pa) := by
  have hcond : ¬ (pa ≠ [] ∧ pa.head? ≠ some '/') := by
    rcases hpa with hpa | hpa
    · intro hctr
      exact hctr.1 hpa
    · intro hctr
      exact hctr.2 hpa
  simp only [urlunsplitChars]
  rw [if_pos (Or.inl hnlne), if_neg hcond, if_pos hsne]
  rw [if_neg (show ¬ (([] : Url) ≠ []) by simp)]
  rw [if_neg (show ¬ (([] : Url) ≠ []) by simp)]
  simp [List.append_assoc]

theorem usesRelative_subset_usesNetloc :
    ∀ x ∈ usesRelative, x ∈ usesNetloc := by decide

theorem urljoin_absolute (base : Url) (s nl pa : Url)
    (hs : validScheme s = true) (hlow : lowerChars s = s) (hsne : s ≠ [])
    (hnl : ∀ c ∈ nl, notDelimChar c = true) (hnlne : nl ≠ [])
    (hpa1 : pa = [] ∨ pa.head? = some '/') (hpaq : '?' ∉ pa) (hpaf : '#' ∉ pa) :
    urljoinChars base (s ++ ':' :: '/' :: '/' :: (nl ++ pa)) =
      s ++ ':' :: '/' :: '/' :: (nl ++ pa) := by
  simp only [urljoinChars]
  by_cases hb : base = []
  · rw [if_pos hb]
  rw [if_neg hb]
  rw [if_neg (by simp [hsne] : ¬ (s ++ ':' :: '/' :: '/' :: (nl ++ pa) = []))]
  rw [urlsplit_reassembled s nl pa hs hlow hnl hpa1 hpaq hpaf]
  rw [if_neg (show ¬ ((⟨s, nl, pa, [], []⟩ : UrlParts).scheme = []) from by simpa using hsne)]
  by_cases hrel : (⟨s, nl, pa, [], []⟩ : UrlParts).scheme ≠ (urlsplitChars base).scheme ∨
      (⟨s, nl, pa, [], []⟩ : UrlParts).scheme ∉ usesRelative
  · rw [if_pos hrel]
  rw [if_neg hrel]
  push_neg at hrel
  rw [if_pos (⟨usesRelative_subset_usesNetloc _ hrel.2, hnlne⟩ :
    (⟨s, nl, pa, [], []⟩ : UrlParts).scheme ∈ usesNetloc ∧
      (⟨s, nl, pa, [], []⟩ : UrlParts).netloc ≠ [])]
  exact urlunsplit_mk s nl pa hsne hnlne hpa1

theorem splitAtFirst_fst_cons {sep c : Char} (t : Url) (h : c ≠ sep) :
    (splitAtFirst sep (c :: t)).1 = c :: (splitAtFirst sep t).1 := by
  rw [splitAtFirst, if_neg h]

theorem urlsplit_scheme_facts (u : Url) :
    (urlsplitChars u).scheme = [] ∨
    (validScheme (urlsplitChars u).scheme = true ∧
      lowerChars (urlsplitChars u).scheme = (urlsplitChars u).scheme) := by
  have heq : (urlsplitChars u).scheme = (splitScheme u).1 := rfl
  rw [heq, splitScheme]
  cases hsp : splitAtFirst ':' u with
  | mk before after =>
    cases after with
    | none =>
      left
      rfl
    | some rest =>
      simp only []
      by_cases hv : validScheme before = true
      · rw [if_pos hv]
        right
        exact ⟨validScheme_lower hv, lowerChars_idem before⟩
      · rw [if_neg hv]
        left
        rfl

theorem urlsplit_netloc_delim (u : Url) :
    ∀ c ∈ (urlsplitChars u).netloc, notDelimChar c = true := by
  have heq : (urlsplitChars u).netloc = (splitNetloc (splitScheme u).2).1 := rfl
  rw [heq, splitNetloc]
  by_cases h2 : ((splitScheme u).2).take 2 = ['/', '/']
  · rw [if_pos h2]
    intro c hc
    exact List.mem_takeWhile_imp hc
  · rw [if_neg h2]
    intro c hc
    simp at hc

theorem notDelimChar_false {c : Char} (h : notDelimChar c = false) :
    c = '/' ∨ c = '?' ∨ c = '#' := by
  simp only [notDelimChar, Bool.not_eq_false', Bool.or_eq_true, beq_iff_eq] at h
  tauto

theorem urlsplit_path_no_qf (u : Url) :
    '?' ∉ (urlsplitChars u).path ∧ '#' ∉ (urlsplitChars u).path := by
  have heq : (urlsplitChars u).path =
      (splitQuery (splitSharp (splitNetloc (splitScheme u).2).2).1).1 := rfl
  constructor
  · rw [heq, splitQuery]
    cases hsp : splitAtFirst '?' (splitSharp (splitNetloc (splitScheme u).2).2).1 with
    | mk bf af =>
      have := splitAtFirst_fst_not_mem '?' (splitSharp (splitNetloc (splitScheme u).2).2).1
      rw [hsp] at this
      cases af <;> simpa using this
  · rw [heq]
    intro hm
    have hsub : ∀ c ∈ (splitQuery (splitSharp (splitNetloc (splitScheme u).2).2).1).1,
        c ∈ (splitSharp (splitNetloc (splitScheme u).2).2).1 := by
      rw [splitQuery]
      cases hsp : splitAtFirst '?' (splitSharp (splitNetloc (splitScheme u).2).2).1 with
      | mk bf af =>
        have := splitAtFirst_fst_subset '?' (splitSharp (splitNetloc (splitScheme u).2).2).1
        rw [hsp] at this
        cases af <;> simpa using this
    have hm2 := hsub '#' hm
    have hnm : '#' ∉ (splitSharp (splitNetloc (splitScheme u).2).2).1 := by
      rw [splitSharp]
      cases hsp : splitAtFirst '#' (splitNetloc (splitScheme u).2).2 with
      | mk bf af =>
        have := splitAtFirst_fst_not_mem '#' (splitNetloc (splitScheme u).2).2
        rw [hsp] at this
        cases af <;> simpa using this
    exact hnm hm2

theorem dropWhile_head_false {p : Char → Bool} : ∀ {l : Url} {c : Char} {t : Url},
    l.dropWhile p = c :: t → p c = false := by
  intro l
  induction l with
  | nil =>
    intro c t h
    simp [List.dropWhile] at h
  | cons a as ih =>
    intro c t h
    rw [List.dropWhile_cons] at h
    by_cases hp : p a = true
    · rw [if_pos hp] at h
      exact ih h
    · rw [if_neg hp] at h
      cases h
      simpa using hp

theorem splitSharp_fst (l : Url) : (splitSharp l).1 = (splitAtFirst '#' l).1 := by
  rw [splitSharp]
  cases h : splitAtFirst '#' l with
  | mk bf af => cases af <;> rfl

theorem splitQuery_fst (l : Url) : (splitQuery l).1 = (splitAtFirst '?' l).1 := by
  rw [splitQuery]
  cases h : splitAtFirst '?' l with
  | mk bf af => cases af <;> rfl

theorem urlsplit_path_shape (u : Url) (hne : (urlsplitChars u).netloc ≠ []) :
    (urlsplitChars u).path = [] ∨ (urlsplitChars u).path.head? = some '/' := by
  have heqn : (urlsplitChars u).netloc = (splitNetloc (splitScheme u).2).1 := rfl
  have heqp : (urlsplitChars u).path =
      (splitQuery (splitSharp (splitNetloc (splitScheme u).2).2).1).1 := rfl
  by_cases h2 : ((splitScheme u).2).take 2 = ['/', '/']
  case neg =>
    exfalso
    apply hne
    rw [heqn, splitNetloc, if_neg h2]
  have hrest : (splitNetloc (splitScheme u).2).2 =
      (((splitScheme u).2).drop 2).dropWhile notDelimChar := by
    rw [splitNetloc, if_pos h2]
  rw [heqp, hrest, splitQuery_fst, splitSharp_fst]
  cases hcase : (((splitScheme u).2).drop 2).dropWhile notDelimChar with
  | nil =>
    left
    rfl
  | cons c t =>
    rcases notDelimChar_false (dropWhile_head_false hcase) with hc | hc | hc
    · subst hc
      right
      rw [splitAtFirst_fst_cons t (by decide)]
      rw [splitAtFirst_fst_cons _ (by decide)]
      rfl
    · subst hc
      left
      rw [splitAtFirst_fst_cons t (by decide)]
      rw [show splitAtFirst '?' ('?' :: (splitAtFirst '#' t).1) =
        ([], some (splitAtFirst '#' t).1) from by rw [splitAtFirst]; simp]
    · subst hc
      left
      rw [show splitAtFirst '#' ('#' :: t) = ([], some t) from by rw [splitAtFirst]; simp]
      rfl

/-- **C9** — URL normalization is idempotent on its own output: whenever
`normalize_url(u, b)` is defined and returns `n`, normalizing `n` again
(against any base) returns `n` itself. -/
theorem claim_C9_normalize_idempotent (cfg : WcConfig) (u b b2 n : Url)
    (h : normalizeUrl cfg u b = some n) :
    normalizeUrl cfg n b2 = some n := by
  simp only [normalizeUrl] at h
  by_cases h1 : (urlsplitChars (urljoinChars b u)).scheme = [] ∨
      (urlsplitChars (urljoinChars b u)).netloc = []
  · rw [if_pos h1] at h
    exact absurd h (by simp)
  rw [if_neg h1] at h
  by_cases h2 : ¬ isAllowedDomain cfg (urljoinChars b u) = true
  · rw [if_pos h2] at h
    exact absurd h (by simp)
  rw [if_neg h2] at h
  push_neg at h1 h2
  obtain ⟨hs_ne, hnl_ne⟩ := h1
  have hn := (Option.some.inj h).symm
  have hsv : validScheme (urlsplitChars (urljoinChars b u)).scheme = true ∧
      lowerChars (urlsplitChars (urljoinChars b u)).scheme =
        (urlsplitChars (urljoinChars b u)).scheme := by
    rcases urlsplit_scheme_facts (urljoinChars b u) with h' | h'
    · exact absurd h' hs_ne
    · exact h'
  have hnd := urlsplit_netloc_delim (urljoinChars b u)
  have hshape := urlsplit_path_shape (urljoinChars b u) hnl_ne
  have hqf := urlsplit_path_no_qf (urljoinChars b u)
  have hn' : n = (urlsplitChars (urljoinChars b u)).scheme ++ ':' :: '/' :: '/' ::
      ((urlsplitChars (urljoinChars b u)).netloc ++
        (urlsplitChars (urljoinChars b u)).path) := by
    rw [hn]
    simp [List.append_assoc]
  have hdom : isAllowedDomain cfg ((urlsplitChars (urljoinChars b u)).scheme ++
      ':' :: '/' :: '/' :: ((urlsplitChars (urljoinChars b u)).netloc ++
        (urlsplitChars (urljoinChars b u)).path)) = true := by
    rw [isAllowedDomain,
      urlsplit_reassembled _ _ _ hsv.1 hsv.2 hnd hshape hqf.1 hqf.2]
    rw [isAllowedDomain] at h2
    exact h2
  simp only [normalizeUrl]
  rw [hn']
  rw [urljoin_absolute b2 _ _ _ hsv.1 hsv.2 hs_ne hnd hnl_ne hshape hqf.1 hqf.2]
  rw [urlsplit_reassembled _ _ _ hsv.1 hsv.2 hnd hshape hqf.1 hqf.2]
  rw [if_neg (by simpa using And.intro hs_ne hnl_ne)]
  rw [if_neg (by rw [hdom]; simp)]
  rw [← hn', hn]

/-- Witness for C9: normalizing `/a?q#f` against `http://h/base` gives
`http://h/a`, and normalizing that again is the identity. -/
theorem claim_C9_normalize_idempotent_witness :
    normalizeUrl c4Cfg "/a?q#f".data "http://h/base".data = some "http://h/a".data ∧
    normalizeUrl c4Cfg "http://h/a".data "http://other/".data = some "http://h/a".data :=
  ⟨by decide,
    claim_C9_normalize_idempotent c4Cfg "/a?q#f".data "http://h/base".data
      "http://other/".data "http://h/a".data (by decide)⟩

/-- **C10** — `normalize_url(url, base_url)` returns `None` exactly when
the resolved absolute URL lacks a scheme or a netloc or fails the
allowed-domain check; otherwise it returns `scheme://netloc+path` with
the query string and fragment dropped — so two URLs that resolve to the
same scheme, netloc and path (differing only in query or fragment)
normalize identically. -/
theorem claim_C10_normalize_shape (cfg : WcConfig) (u b u2 : Url)
    (hagree :
      (urlsplitChars (urljoinChars b u2)).scheme =
        (urlsplitChars (urljoinChars b u)).scheme ∧
      (urlsplitChars (urljoinChars b u2)).netloc =
        (urlsplitChars (urljoinChars b u)).netloc ∧
      (urlsplitChars (urljoinChars b u2)).path =
        (urlsplitChars (urljoinChars b u)).path) :
    (normalizeUrl cfg u b = none ↔
      ((urlsplitChars (urljoinChars b u)).scheme = [] ∨
        (urlsplitChars (urljoinChars b u)).netloc = [] ∨
        ¬ isAllowedDomain cfg (urljoinChars b u) = true)) ∧
    (∀ n, normalizeUrl cfg u b = some n →
      n = (urlsplitChars (urljoinChars b u)).scheme ++ [':', '/', '/'] ++
        (urlsplitChars (urljoinChars b u)).netloc ++
        (urlsplitChars (urljoinChars b u)).path) ∧
    normalizeUrl cfg u2 b = normalizeUrl cfg u b := by
  obtain ⟨e1, e2, e3⟩ := hagree
  refine ⟨?_, ?_, ?_⟩
  · simp only [normalizeUrl]
    by_cases h1 : (urlsplitChars (urljoinChars b u)).scheme = [] ∨
        (urlsplitChars (urljoinChars b u)).netloc = []
    · rw [if_pos h1]
      simp [h1]
      tauto
    · rw [if_neg h1]
      push_neg at h1
      by_cases h2 : ¬ isAllowedDomain cfg (urljoinChars b u) = true
      · rw [if_pos h2]
        simp [h1.1, h1.2, h2]
      · rw [if_neg h2]
        simp [h1.1, h1.2, h2]
  · intro n hn
    simp only [normalizeUrl] at hn
    by_cases h1 : (urlsplitChars (urljoinChars b u)).scheme = [] ∨
        (urlsplitChars (urljoinChars b u)).netloc = []
    · rw [if_pos h1] at hn
      exact absurd hn (by simp)
    rw [if_neg h1] at hn
    by_cases h2 : ¬ isAllowedDomain cfg (urljoinChars b u) = true
    · rw [if_pos h2] at hn
      exact absurd hn (by simp)
    rw [if_neg h2] at hn
    exact (Option.some.inj hn).symm
  · simp only [normalizeUrl, isAllowedDomain, e1, e2, e3]

/-- Witness for C10: `http://h/p?x=1` and `http://h/p#frag` normalize to
the same URL. -/
theorem claim_C10_normalize_shape_witness :
    normalizeUrl c4Cfg "http://h/p#frag".data "http://h/".data =
      normalizeUrl c4Cfg "http://h/p?x=1".data "http://h/".data :=
  (claim_C10_normalize_shape c4Cfg "http://h/p?x=1".data "http://h/".data
    "http://h/p#frag".data ⟨by decide, by decide, by decide⟩).2.2
